import Mathlib

/-!
Shallow embedding of the intelephense symbol-store core
(`src/symbolStore.ts`, the `TypeAggregate` file, and the facade), together
with proofs about the behaviour of `SymbolStore.add` / `remove` / `find` /
`match`, `TypeAggregate`, `findMembers` and `findBaseMember`.

Machine numbers are modelled as `Nat`/`Int`; JS object identity is modelled
as structural equality of the tree values; JS `Map`-like objects are
association lists.  Components of the repository whose sources are not under
`src/` (only imported there) are modelled from the spec and carry a
`Modelled from the spec:` doc comment.
-/

set_option maxRecDepth 4000


/-- Position in a document (line / character), as in vscode-languageserver-types. -/
structure DocPos where
  line : Nat
  character : Nat
deriving DecidableEq, Repr

/-- Range in a document. -/
structure DocRange where
  start : DocPos
  stop : DocPos
deriving DecidableEq, Repr

/-- Location of a symbol: hashed URI of the owning document plus a range. -/
structure HashedLocation where
  uriHash : Nat
  range : DocRange
deriving DecidableEq, Repr

/-- Index stub stored in the name index: hashed URI plus range-start position
(`HashedStartLocation` in `symbolStore.ts`). -/
structure HashedStartLocation where
  uriHash : Nat
  start : DocPos
deriving DecidableEq, Repr

namespace SymbolKind

/-- Kind bit values; the ones up to `Namespace` are visible in
`lib/intelephense.js`, the remaining members of the closed enum of the spec
(`ClassConstant`, `Constructor`, `File`) are modelled from the spec as the
next powers of two. -/
def None : Nat := 0

def Class : Nat := 1

def Interface : Nat := 2

def Trait : Nat := 4

def Constant : Nat := 8

def Property : Nat := 16

def Method : Nat := 32

def Function : Nat := 64

def Parameter : Nat := 128

def Variable : Nat := 256

def Namespace : Nat := 512

def ClassConstant : Nat := 1024

def Constructor : Nat := 2048

def File : Nat := 4096

end SymbolKind

/-- Valid members of the closed `SymbolKind` enum of the spec. -/
def validKind (k : Nat) : Bool :=
  k = SymbolKind.None || k = SymbolKind.Class || k = SymbolKind.Interface ||
  k = SymbolKind.Trait || k = SymbolKind.Constant || k = SymbolKind.Property ||
  k = SymbolKind.Method || k = SymbolKind.Function || k = SymbolKind.Parameter ||
  k = SymbolKind.Variable || k = SymbolKind.Namespace || k = SymbolKind.ClassConstant ||
  k = SymbolKind.Constructor || k = SymbolKind.File

namespace SymbolModifier

/-- Modelled from the spec: modifiers are a bit-set (Public/Protected/Private/
Static/Abstract/Final/Anonymous/Magic/Use...); `symbol.ts` is not under
`src/`, so the individual bit values are chosen as distinct powers of two. -/
def Public : Nat := 1

def Protected : Nat := 2

def Private : Nat := 4

def Final : Nat := 8

def Abstract : Nat := 16

def Static : Nat := 32

def Magic : Nat := 64

def Anonymous : Nat := 128

def Use : Nat := 256

end SymbolModifier

/-- A PHP symbol tree node: kind, qualified name, modifier bit-set, owning
scope name (empty when absent), doc-comment description (when present),
`associated` stub list, optional location and ordered children, exactly the
fields of `PhpSymbol` that the symbol store core reads. -/
inductive PhpSymbol : Type where
  | mk (kind : Nat) (name : String) (modifiers : Nat) (scope : String)
       (doc : Option String) (associated : List PhpSymbol)
       (location : Option HashedLocation) (children : List PhpSymbol) : PhpSymbol

namespace PhpSymbol

def kind : PhpSymbol → Nat
  | .mk k _ _ _ _ _ _ _ => k

def name : PhpSymbol → String
  | .mk _ n _ _ _ _ _ _ => n

def modifiers : PhpSymbol → Nat
  | .mk _ _ m _ _ _ _ _ => m

def scope : PhpSymbol → String
  | .mk _ _ _ sc _ _ _ _ => sc

def doc : PhpSymbol → Option String
  | .mk _ _ _ _ d _ _ _ => d

def associated : PhpSymbol → List PhpSymbol
  | .mk _ _ _ _ _ a _ _ => a

def location : PhpSymbol → Option HashedLocation
  | .mk _ _ _ _ _ _ l _ => l

def children : PhpSymbol → List PhpSymbol
  | .mk _ _ _ _ _ _ _ c => c

end PhpSymbol

mutual

/-- Boolean structural equality on symbols (JS object identity is modelled as
structural equality of the embedded values). -/
def PhpSymbol.beq : PhpSymbol → PhpSymbol → Bool
  | .mk k1 n1 m1 s1 d1 a1 l1 c1, .mk k2 n2 m2 s2 d2 a2 l2 c2 =>
    k1 == k2 && n1 == n2 && m1 == m2 && s1 == s2 && d1 == d2 &&
      PhpSymbol.beqList a1 a2 && l1 == l2 && PhpSymbol.beqList c1 c2

/-- Boolean structural equality on symbol lists. -/
def PhpSymbol.beqList : List PhpSymbol → List PhpSymbol → Bool
  | [], [] => true
  | x :: xs, y :: ys => PhpSymbol.beq x y && PhpSymbol.beqList xs ys
  | _, _ => false

end

mutual

theorem PhpSymbol.beq_iff : ∀ a b : PhpSymbol, (PhpSymbol.beq a b = true) ↔ a = b
  | .mk k1 n1 m1 s1 d1 a1 l1 c1, .mk k2 n2 m2 s2 d2 a2 l2 c2 => by
    rw [PhpSymbol.beq]
    simp only [Bool.and_eq_true, beq_iff_eq, PhpSymbol.mk.injEq]
    rw [PhpSymbol.beqList_iff a1 a2, PhpSymbol.beqList_iff c1 c2]
    tauto

theorem PhpSymbol.beqList_iff : ∀ xs ys : List PhpSymbol,
    (PhpSymbol.beqList xs ys = true) ↔ xs = ys
  | [], [] => by simp [PhpSymbol.beqList]
  | [], _ :: _ => by simp [PhpSymbol.beqList]
  | _ :: _, [] => by simp [PhpSymbol.beqList]
  | x :: xs, y :: ys => by
    rw [PhpSymbol.beqList]
    simp only [Bool.and_eq_true, List.cons.injEq]
    rw [PhpSymbol.beq_iff x y, PhpSymbol.beqList_iff xs ys]

end

instance : DecidableEq PhpSymbol := fun a b => decidable_of_iff _ (PhpSymbol.beq_iff a b)

mutual

/-- Pre-order flattening of a symbol tree, the traversal order of
`TreeTraverser` (`toArray`, `count`, `filter` in `SymbolTable`). -/
def PhpSymbol.preorder : PhpSymbol → List PhpSymbol
  | .mk k n m sc d a l c => .mk k n m sc d a l c :: PhpSymbol.preorderList c

/-- Pre-order flattening of a forest of symbol trees. -/
def PhpSymbol.preorderList : List PhpSymbol → List PhpSymbol
  | [] => []
  | x :: xs => PhpSymbol.preorder x ++ PhpSymbol.preorderList xs

end

/-- Helper mirroring a JS `Set` built by insertion: keeps the first occurrence
of each element, in insertion order (`Array.from(new Set(xs))`). -/
def dedupAux [DecidableEq α] : List α → List α → List α
  | _, [] => []
  | seen, x :: xs => if x ∈ seen then dedupAux seen xs else x :: dedupAux (x :: seen) xs

/-- JS `Array.from(new Set(xs))`: first occurrences in insertion order. -/
def dedupFirst [DecidableEq α] (xs : List α) : List α := dedupAux [] xs

/-- Case-folding used throughout the embedding.  It is extensionally equal to
`String.toLower` of the runtime (see `strToLower_eq`), but written by direct
list mapping so that it reduces inside the kernel (`String.toLower` is
defined by well-founded recursion over byte positions). -/
def strToLower (s : String) : String := ⟨s.data.map Char.toLower⟩

/-- Accumulator loop of `splitOnChar`. -/
def splitOnCharAux (sep : Char) : List Char → List Char → List String
  | cur, [] => [⟨cur.reverse⟩]
  | cur, ch :: cs =>
    if ch = sep then ⟨cur.reverse⟩ :: splitOnCharAux sep [] cs
    else splitOnCharAux sep (ch :: cur) cs

/-- Kernel-computable splitting of a string at every occurrence of a single
separator character; the embedding's counterpart of the JS `split` /
`String.splitOn` calls of the core, which only ever use the one-character
separators `\\` and `|`. -/
def splitOnChar (sep : Char) (s : String) : List String :=
  splitOnCharAux sep [] s.data

/-- A per-document symbol table: a URI and the root of its symbol tree
(`SymbolTable` in `symbolStore.ts`). -/
structure SymbolTable where
  uri : String
  root : PhpSymbol
deriving DecidableEq

/-- Number of symbols of a table: all pre-order nodes minus the root
(`SymbolTable.symbolCount`). -/
def SymbolTable.symbolCount (t : SymbolTable) : Nat :=
  t.root.preorder.length - 1

mutual

/-- One pass of `ScopedVariablePruneVisitor`: strip Variable-kind children
from every Function/Method node, then keep descending. -/
def PhpSymbol.prune : PhpSymbol → PhpSymbol
  | .mk k n m sc d a l c => .mk k n m sc d a l (PhpSymbol.pruneList k c)

/-- Prune the children of a node of kind `k`: children of Function/Method
nodes that are Variable-kind are dropped, the remaining ones are pruned
recursively (the visitor filters first and then descends). -/
def PhpSymbol.pruneList : Nat → List PhpSymbol → List PhpSymbol
  | _, [] => []
  | k, x :: xs =>
    if (k = SymbolKind.Function ∨ k = SymbolKind.Method) ∧ x.kind = SymbolKind.Variable then
      PhpSymbol.pruneList k xs
    else
      PhpSymbol.prune x :: PhpSymbol.pruneList k xs

end

/-- Effect of `SymbolTable.pruneScopedVars` (mutation in the source, rebuilt
functionally here). -/
def SymbolTable.pruneScopedVars (t : SymbolTable) : SymbolTable :=
  { t with root := t.root.prune }

/-- Key set of a symbol in the name index (`KeyedHashedStartLocation.keys` in
`symbolStore.ts` for the Namespace case; the default case defers to
`PhpSymbol.keys`, whose source is not under `src/` and is modelled from the
spec: the full case-folded name). -/
def symbolKeys (s : PhpSymbol) : List String :=
  if s.kind = SymbolKind.Namespace then
    dedupFirst (strToLower s.name ::
      (splitOnChar '\\' (strToLower s.name)).filter (fun seg => seg ≠ ""))
  else
    [strToLower s.name]

/-- An index record for one symbol: its keys and its location stub
(`KeyedHashedStartLocation`). -/
structure KeyedHashedStartLocation where
  keys : List String
  start : HashedStartLocation
deriving DecidableEq

/-- Construction of an index record (`KeyedHashedStartLocation.create`); the
source reads `s.location.uriHash` unconditionally, so a node without a
location would fault in JS — here it yields `none`. -/
def KeyedHashedStartLocation.create? (s : PhpSymbol) : Option KeyedHashedStartLocation :=
  match s.location with
  | some l => some { keys := symbolKeys s, start := { uriHash := l.uriHash, start := l.range.start } }
  | none => none

/-- Filter of `IndexableSymbolVisitor.preorder`: no Parameter, File or
Variable kinds, no `use` modifier, non-empty name. -/
def indexableFilter (s : PhpSymbol) : Bool :=
  decide ((s.kind &&& (SymbolKind.Parameter ||| SymbolKind.File ||| SymbolKind.Variable)) = 0) &&
  decide ((s.modifiers &&& SymbolModifier.Use) = 0) &&
  decide (s.name ≠ "")

/-- Nodes of a table collected by `IndexableSymbolVisitor`. -/
def SymbolTable.indexedNodes (t : SymbolTable) : List PhpSymbol :=
  t.root.preorder.filter indexableFilter

/-- Index records produced by traversing a table with
`IndexableSymbolVisitor` (`symbolTable.traverse(new IndexableSymbolVisitor(id)).items`). -/
def SymbolTable.indexItems (t : SymbolTable) : List KeyedHashedStartLocation :=
  t.indexedNodes.filterMap KeyedHashedStartLocation.create?

/-- Modelled from the spec: the Name Index, a multimap from case-folded
name keys to location-stub buckets (its source, `types.ts` in the current
variant, is not under `src/`). -/
structure NameIndex where
  entries : List (String × List HashedStartLocation)
deriving DecidableEq

namespace NameIndex

/-- Modelled from the spec: the bucket stored under a key (empty when the key
is absent). -/
def getBucket (idx : NameIndex) (k : String) : List HashedStartLocation :=
  match idx.entries.find? (fun e => e.1 = k) with
  | some e => e.2
  | none => []

/-- Modelled from the spec: insert a location stub into one key's bucket,
creating the bucket when absent. -/
def addKeyEntries (loc : HashedStartLocation) :
    List (String × List HashedStartLocation) → String → List (String × List HashedStartLocation)
  | [], k => [(k, [loc])]
  | e :: es, k => if e.1 = k then (k, e.2 ++ [loc]) :: es else e :: addKeyEntries loc es k

/-- Modelled from the spec: remove one occurrence of a location stub from one
key's bucket, deleting the bucket when it becomes empty (mirrors the
`SuffixArray.remove` shape visible in the historical `types.ts`). -/
def removeKeyEntries (loc : HashedStartLocation) :
    List (String × List HashedStartLocation) → String → List (String × List HashedStartLocation)
  | [], _ => []
  | e :: es, k =>
    if e.1 = k then
      let b := e.2.erase loc
      if b = [] then es else (k, b) :: es
    else e :: removeKeyEntries loc es k

/-- Modelled from the spec: `NameIndex.add(location, keys)` inserts the stub
into every key's bucket. -/
def addItem (idx : NameIndex) (it : KeyedHashedStartLocation) : NameIndex :=
  ⟨it.keys.foldl (addKeyEntries it.start) idx.entries⟩

/-- Modelled from the spec: `NameIndex.remove(location, keys)` is symmetric
to `add`. -/
def removeItem (idx : NameIndex) (it : KeyedHashedStartLocation) : NameIndex :=
  ⟨it.keys.foldl (removeKeyEntries it.start) idx.entries⟩

/-- Modelled from the spec: `find(text)` returns the bucket whose key
case-fold-equals `text`. -/
def findKey (idx : NameIndex) (text : String) : List HashedStartLocation :=
  idx.getBucket (strToLower text)

/-- Modelled from the spec: `match(prefix)` returns the union of the buckets
whose key starts with the case-folded prefix. -/
def matchKeys (idx : NameIndex) (text : String) : List HashedStartLocation :=
  ((idx.entries.filter (fun e => e.1.startsWith (strToLower text))).map (fun e => e.2)).flatten

end NameIndex

/-- Modelled from the spec: the stable URI-to-integer mapping service
(`uriMap.id`); realised as bijective base-1114112 numeration over the
code points, which is injective. -/
def uriId (uri : String) : Nat :=
  uri.data.foldl (fun a c => a * 1114112 + (c.toNat + 1)) 0

/-- Modelled from the spec: resolving an index stub to a live symbol is a
search through the owning table by range-start position
(`FindByStartPositionTraverser`, whose source is not under `src/`): the
first pre-order node whose location starts at the given position. -/
def findByStart (root : PhpSymbol) (p : DocPos) : Option PhpSymbol :=
  root.preorder.find? (fun s =>
    match s.location with
    | some l => decide (l.range.start = p)
    | none => false)

/-- The project-wide symbol store (`SymbolStore`): the URI-id-keyed table
registry, the name index and the running symbol count. -/
structure Store where
  tableIndex : List (Nat × SymbolTable)
  symbolIndex : NameIndex
  symbolCount : Int
deriving DecidableEq

namespace Store

/-- The freshly constructed store. -/
def empty : Store := { tableIndex := [], symbolIndex := ⟨[]⟩, symbolCount := 0 }

/-- Lookup of `this._tableIndex[id]`. -/
def lookupTable (st : Store) (id : Nat) : Option SymbolTable :=
  (st.tableIndex.find? (fun e => e.1 = id)).map (fun e => e.2)

/-- Assignment `this._tableIndex[id] = table`: replace in place when the key
exists, append otherwise. -/
def setTableEntry : List (Nat × SymbolTable) → Nat → SymbolTable → List (Nat × SymbolTable)
  | [], id, t => [(id, t)]
  | e :: es, id, t => if e.1 = id then (id, t) :: es else e :: setTableEntry es id t

/-- Statement `delete this._tableIndex[id]`. -/
def deleteTableEntry (es : List (Nat × SymbolTable)) (id : Nat) : List (Nat × SymbolTable) :=
  es.filter (fun e => e.1 ≠ id)

/-- `SymbolStore.remove(uri)`: when a table is registered for the URI, drop
it from the registry, remove all its index records and decrement the count. -/
def remove (st : Store) (uri : String) : Store :=
  let id := uriId uri
  match st.lookupTable id with
  | none => st
  | some t =>
    { tableIndex := deleteTableEntry st.tableIndex id
      symbolIndex := t.indexItems.foldl NameIndex.removeItem st.symbolIndex
      symbolCount := st.symbolCount - (t.symbolCount : Int) }

/-- `SymbolStore.add(table)`: remove any table registered for the same URI
first (replace semantics), then register the table, add all its index
records and increment the count. -/
def add (st : Store) (t : SymbolTable) : Store :=
  let st1 := st.remove t.uri
  { tableIndex := setTableEntry st1.tableIndex (uriId t.uri) t
    symbolIndex := t.indexItems.foldl NameIndex.addItem st1.symbolIndex
    symbolCount := st1.symbolCount + (t.symbolCount : Int) }

/-- Resolution of one index stub inside `_indexResultToSymbols`: find the
owning table by URI hash, then the symbol by start position (an unresolvable
stub would fault in JS; it is skipped here and ruled out by well-formedness). -/
def resolveStub (st : Store) (loc : HashedStartLocation) : Option PhpSymbol :=
  (st.lookupTable loc.uriHash).bind (fun t => findByStart t.root loc.start)

/-- `SymbolStore._indexResultToSymbols`: resolve every stub and de-duplicate
by identity through a JS `Set`. -/
def indexResultToSymbols (st : Store) (results : List HashedStartLocation) : List PhpSymbol :=
  dedupFirst (results.filterMap (st.resolveStub))

/-- Kind mask used by `find`: Constant and Variable match case-sensitively. -/
def findKindMask : Nat := SymbolKind.Constant ||| SymbolKind.Variable

/-- `SymbolStore.find(text, filter)`: exact lookup in the name index, then
the case-sensitivity rule per kind and the optional predicate (an absent
predicate is the constantly-true one). -/
def find (st : Store) (text : String) (filter : PhpSymbol → Bool) : List PhpSymbol :=
  if text = "" then []
  else
    (st.indexResultToSymbols (st.symbolIndex.findKey text)).filter (fun s =>
      filter s &&
        ((decide ((s.kind &&& findKindMask) > 0) && s.name == text) ||
          (!decide ((s.kind &&& findKindMask) > 0) && strToLower s.name == strToLower text)))

/-- `SymbolStore.match(text, filter)`: case-insensitive prefix query over the
name index, then the optional predicate. -/
def matchText (st : Store) (text : String) (filter : PhpSymbol → Bool) : List PhpSymbol :=
  if text = "" then []
  else
    (st.indexResultToSymbols (st.symbolIndex.matchKeys text)).filter filter

/-- All symbols of all registered tables (in registry order); auxiliary
notion used to bound `TypeAggregate`'s closure computation. -/
def allSymbols (st : Store) : List PhpSymbol :=
  (st.tableIndex.map (fun e => e.2.root.preorder)).flatten

end Store

/-- Modelled from the spec: `PhpSymbol.isClassLike` holds of the class-like
kinds Class, Interface and Trait (`symbol.ts` is not under `src/`; the same
mask is visible in the `TypeAggregate` constructor). -/
def isClassLikeB (s : PhpSymbol) : Bool :=
  decide ((s.kind &&& (SymbolKind.Class ||| SymbolKind.Interface ||| SymbolKind.Trait)) ≠ 0)

/-- Modelled from the spec: `TypeString.atomicClassArray` splits a
type-string, possibly a union such as "A|B", into its atomic class names
(`typeString.ts` is not under `src/`). -/
def atomicClassArray (s : String) : List String :=
  (splitOnChar '|' s).filter (fun x => x ≠ "")

/-- Member merge strategies of `TypeAggregate`. -/
inductive MemberMergeStrategy where
  | none
  | override
  | documented
  | base
deriving DecidableEq

/-- Test of `TypeAggregate.hasInheritdoc`: the doc description, case-folded
and trimmed, is exactly an inheritdoc marker. -/
def hasInheritdoc (description : String) : Bool :=
  if description = "" then false
  else
    let d := (strToLower description).trim
    d == "@inheritdoc" || d == "\x7b@inheritdoc\x7d"

/-- Condition `!mapped.doc || hasInheritdoc(mapped.doc.description)` of the
Documented strategy. -/
def docMissingOrInherited : Option String → Bool
  | Option.none => true
  | Option.some d => hasInheritdoc d

/-- Overwrite condition of `TypeAggregate._mergeMembers` when the name is
already mapped: prefer non-magic members, prefer documented members under
Documented, always prefer the later entry under Base. -/
def mergeOverwrite (strategy : MemberMergeStrategy) (mapped s : PhpSymbol) : Bool :=
  (decide ((mapped.modifiers &&& SymbolModifier.Magic) > 0) &&
      !decide ((s.modifiers &&& SymbolModifier.Magic) > 0)) ||
  (decide (strategy = MemberMergeStrategy.documented) && docMissingOrInherited mapped.doc &&
      s.doc.isSome) ||
  decide (strategy = MemberMergeStrategy.base)

/-- Lookup in the insertion-ordered name-keyed map of `_mergeMembers`. -/
def lookupName (m : List (String × PhpSymbol)) (n : String) : Option PhpSymbol :=
  (m.find? (fun e => e.1 = n)).map (fun e => e.2)

/-- Assignment `map[name] = s` in an insertion-ordered name-keyed map:
replace in place when present, append when absent. -/
def setName : List (String × PhpSymbol) → String → PhpSymbol → List (String × PhpSymbol)
  | [], n, v => [(n, v)]
  | e :: es, n, v => if e.1 = n then (n, v) :: es else e :: setName es n v

/-- One iteration of the `_mergeMembers` loop. -/
def mergeStep (strategy : MemberMergeStrategy) (m : List (String × PhpSymbol))
    (s : PhpSymbol) : List (String × PhpSymbol) :=
  match lookupName m s.name with
  | Option.none => setName m s.name s
  | Option.some mapped =>
    if mergeOverwrite strategy mapped s then setName m s.name s else m

/-- `TypeAggregate._mergeMembers`: identity under the None strategy,
otherwise a fold into a name-keyed insertion-ordered map followed by
`Object.keys(map).map(...)`. -/
def mergeMembers (symbols : List PhpSymbol) (strategy : MemberMergeStrategy) : List PhpSymbol :=
  if strategy = MemberMergeStrategy.none then symbols
  else (symbols.foldl (mergeStep strategy) []).map (fun e => e.2)

/-- `TypeAggregate._interfaceMembers` (and `_traitMembers`): plain
concatenation of the filtered children of each aggregate member. -/
def interfaceMembers (ifaces : List PhpSymbol) (pred : PhpSymbol → Bool) : List PhpSymbol :=
  (ifaces.map (fun s => s.children.filter pred)).flatten

/-- Loop of `TypeAggregate._classMembers`: walk the aggregate, collecting
filtered children of non-trait members (the caller predicate applies to the
first member only, afterwards privates are additionally excluded) and the
trait members themselves. -/
def classCollect (pred noPriv : PhpSymbol → Bool) :
    List PhpSymbol → Bool → List PhpSymbol × List PhpSymbol
  | [], _ => ([], [])
  | s :: rest, isFirst =>
    if s.kind = SymbolKind.Trait then
      let r := classCollect pred noPriv rest false
      (r.1, s :: r.2)
    else
      let r := classCollect pred noPriv rest false
      ((s.children.filter (if isFirst then pred else noPriv)) ++ r.1, r.2)

/-- `TypeAggregate._classMembers`: merge the non-trait members under the
strategy, then append the trait members unmerged, filtered by the non-private
variant of the predicate. -/
def classMembers (assoc : List PhpSymbol) (strategy : MemberMergeStrategy)
    (pred : PhpSymbol → Bool) : List PhpSymbol :=
  let noPriv : PhpSymbol → Bool :=
    fun x => !decide ((x.modifiers &&& SymbolModifier.Private) > 0) && pred x
  let r := classCollect pred noPriv assoc true
  mergeMembers r.1 strategy ++ interfaceMembers r.2 noPriv

/-- The `TypeAggregate` object: a store handle, the root symbol and the
exclude-traits flag. -/
structure TypeAggregate where
  symbolStore : Store
  symbol : PhpSymbol
  excludeTraits : Bool
deriving DecidableEq

/-- Effect on the store of `Intelephense.closeDocument`: the table registered
for the URI (when there is one) gets `pruneScopedVars()` applied in place;
the store's name index and running symbol count are not touched. -/
def Store.pruneTable (st : Store) (uri : String) : Store :=
  let id := uriId uri
  match st.lookupTable id with
  | Option.none => st
  | Option.some t =>
    { st with tableIndex := Store.setTableEntry st.tableIndex id t.pruneScopedVars }

/-- Sum of the per-table symbol counts over the registry. -/
def Store.sumTableCounts (st : Store) : Int :=
  (st.tableIndex.map (fun e => (e.2.symbolCount : Int))).sum

/-- Stores reachable from the empty store by the core mutators `add` and
`remove`. -/
inductive Reachable : Store → Prop where
  | empty : Reachable Store.empty
  | add {st : Store} (t : SymbolTable) : Reachable st → Reachable (st.add t)
  | remove {st : Store} (uri : String) : Reachable st → Reachable (st.remove uri)

/-- Stores reachable from the empty store by `add`, `remove` and
`pruneScopedVars` on a registered table (the operation set named by the
invariant claim). -/
inductive ReachablePrune : Store → Prop where
  | empty : ReachablePrune Store.empty
  | add {st : Store} (t : SymbolTable) : ReachablePrune st → ReachablePrune (st.add t)
  | remove {st : Store} (uri : String) : ReachablePrune st → ReachablePrune (st.remove uri)
  | prune {st : Store} (uri : String) : ReachablePrune st →
      st.lookupTable (uriId uri) ≠ Option.none → ReachablePrune (st.pruneTable uri)

/-- Keys of a name index are duplicate-free (holds for every index built by
the store's operations). -/
def NameIndex.nodupKeys (idx : NameIndex) : Prop :=
  (idx.entries.map (fun e => e.1)).Nodup

instance (idx : NameIndex) : Decidable idx.nodupKeys := by
  unfold NameIndex.nodupKeys
  infer_instance

/-- Locations contributed to a key's bucket by a list of index records. -/
def locsFor (items : List KeyedHashedStartLocation) (k : String) : List HashedStartLocation :=
  (items.filter (fun it => k ∈ it.keys)).map (fun it => it.start)

/-- Concrete location inside the demonstration document with URI "t". -/
def mkLoc (line char : Nat) : HashedLocation :=
  { uriHash := uriId "t",
    range := { start := { line := line, character := char },
               stop := { line := line, character := char + 1 } } }

/-- Predicate selecting method symbols. -/
def isMethod (s : PhpSymbol) : Bool := decide (s.kind = SymbolKind.Method)

/-- Method `f` of interface `I` in the §8 scenario. -/
def fI : PhpSymbol :=
  .mk SymbolKind.Method "f" SymbolModifier.Public "I" Option.none [] (Option.some (mkLoc 1 4)) []

/-- Interface `I { function f(); }`. -/
def iSym : PhpSymbol :=
  .mk SymbolKind.Interface "I" SymbolModifier.Public "" Option.none [] (Option.some (mkLoc 1 0)) [fI]

/-- Unresolved stub for `I` recorded on `C`'s `associated` list. -/
def stubI : PhpSymbol :=
  .mk SymbolKind.Interface "I" 0 "" Option.none [] Option.none []

/-- Method `f` of class `C`. -/
def fC : PhpSymbol :=
  .mk SymbolKind.Method "f" SymbolModifier.Public "C" Option.none [] (Option.some (mkLoc 2 4)) []

/-- Method `g` of class `C`. -/
def gC : PhpSymbol :=
  .mk SymbolKind.Method "g" SymbolModifier.Public "C" Option.none [] (Option.some (mkLoc 2 8)) []

/-- Class `C implements I { function f(){} function g(){} }`. -/
def cSym : PhpSymbol :=
  .mk SymbolKind.Class "C" SymbolModifier.Public "" Option.none [stubI]
    (Option.some (mkLoc 2 0)) [fC, gC]

/-- Symbol table of the §8 scenario document. -/
def tbl8 : SymbolTable :=
  { uri := "t", root := .mk SymbolKind.File "" 0 "" Option.none [] Option.none [iSym, cSym] }

/-- Store indexing exactly `interface I` and `class C implements I`. -/
def st8 : Store := Store.empty.add tbl8

/-- Method `M` of class `A` (note the upper-case name) in the case-variant
override scenario. -/
def mA : PhpSymbol :=
  .mk SymbolKind.Method "M" SymbolModifier.Public "A" Option.none [] (Option.some (mkLoc 1 4)) []

/-- Class `A { function M(){} }`. -/
def aSym : PhpSymbol :=
  .mk SymbolKind.Class "A" SymbolModifier.Public "" Option.none [] (Option.some (mkLoc 1 0)) [mA]

/-- Unresolved stub for `A`. -/
def stubA : PhpSymbol :=
  .mk SymbolKind.Class "A" 0 "" Option.none [] Option.none []

/-- Method `m` of class `B`, a case-variant override of `A::M`. -/
def mB : PhpSymbol :=
  .mk SymbolKind.Method "m" SymbolModifier.Public "B" Option.none [] (Option.some (mkLoc 2 4)) []

/-- Class `B extends A { function m(){} }`. -/
def bSym : PhpSymbol :=
  .mk SymbolKind.Class "B" SymbolModifier.Public "" Option.none [stubA]
    (Option.some (mkLoc 2 0)) [mB]

/-- Symbol table of the case-variant override document. -/
def tblX : SymbolTable :=
  { uri := "t", root := .mk SymbolKind.File "" 0 "" Option.none [] Option.none [aSym, bSym] }

/-- Store indexing `class A { function M(){} }` and
`class B extends A { function m(){} }`. -/
def stX : Store := Store.empty.add tblX

/-- Method `n` of the base class `A0` in the twice-overridden chain. -/
def nA : PhpSymbol :=
  .mk SymbolKind.Method "n" SymbolModifier.Public "A0" Option.none [] (Option.some (mkLoc 1 4)) []

/-- Base class `A0 { function n(){} }`. -/
def a0Sym : PhpSymbol :=
  .mk SymbolKind.Class "A0" SymbolModifier.Public "" Option.none [] (Option.some (mkLoc 1 0)) [nA]

/-- Unresolved stub for `A0`. -/
def stubA0 : PhpSymbol :=
  .mk SymbolKind.Class "A0" 0 "" Option.none [] Option.none []

/-- Method `n` of the middle class `B0` (first override). -/
def nB : PhpSymbol :=
  .mk SymbolKind.Method "n" SymbolModifier.Public "B0" Option.none [] (Option.some (mkLoc 2 4)) []

/-- Middle class `B0 extends A0 { function n(){} }`. -/
def b0Sym : PhpSymbol :=
  .mk SymbolKind.Class "B0" SymbolModifier.Public "" Option.none [stubA0]
    (Option.some (mkLoc 2 0)) [nB]

/-- Unresolved stub for `B0`. -/
def stubB0 : PhpSymbol :=
  .mk SymbolKind.Class "B0" 0 "" Option.none [] Option.none []

/-- Method `n` of the most-derived class `C0` (second override). -/
def nC : PhpSymbol :=
  .mk SymbolKind.Method "n" SymbolModifier.Public "C0" Option.none [] (Option.some (mkLoc 3 4)) []

/-- Most-derived class `C0 extends B0 { function n(){} }`. -/
def c0Sym : PhpSymbol :=
  .mk SymbolKind.Class "C0" SymbolModifier.Public "" Option.none [stubB0]
    (Option.some (mkLoc 3 0)) [nC]

/-- Symbol table of the twice-overridden chain document. -/
def tblC : SymbolTable :=
  { uri := "t", root := .mk SymbolKind.File "" 0 "" Option.none [] Option.none [a0Sym, b0Sym, c0Sym] }

/-- Store indexing the chain `C0 extends B0 extends A0`, each declaring
method `n`. -/
def stC : Store := Store.empty.add tblC

/-- Unresolved stub for the cyclic class `Y`. -/
def stubY : PhpSymbol :=
  .mk SymbolKind.Class "Y" 0 "" Option.none [] Option.none []

/-- Unresolved stub for the cyclic class `X`. -/
def stubX : PhpSymbol :=
  .mk SymbolKind.Class "X" 0 "" Option.none [] Option.none []

/-- Class `X`, whose `associated` stub names `Y`. -/
def xSym : PhpSymbol :=
  .mk SymbolKind.Class "X" SymbolModifier.Public "" Option.none [stubY]
    (Option.some (mkLoc 1 0)) []

/-- Class `Y`, whose `associated` stub names `X` (mutual cycle with `X`). -/
def ySym : PhpSymbol :=
  .mk SymbolKind.Class "Y" SymbolModifier.Public "" Option.none [stubX]
    (Option.some (mkLoc 2 0)) []

/-- Symbol table of the mutually-referential document. -/
def tblY : SymbolTable :=
  { uri := "t", root := .mk SymbolKind.File "" 0 "" Option.none [] Option.none [xSym, ySym] }

/-- Store with the cyclic `associated` graph `X ↔ Y`. -/
def stY : Store := Store.empty.add tblY

/-- Scoped variable `$v` inside function `f4`. -/
def var4 : PhpSymbol :=
  .mk SymbolKind.Variable "$v" 0 "" Option.none [] (Option.some (mkLoc 1 10)) []

/-- Function `f4` containing the scoped variable. -/
def fn4 : PhpSymbol :=
  .mk SymbolKind.Function "f4" 0 "" Option.none [] (Option.some (mkLoc 1 0)) [var4]

/-- Symbol table with a function holding a scoped variable. -/
def tbl4 : SymbolTable :=
  { uri := "t", root := .mk SymbolKind.File "" 0 "" Option.none [] Option.none [fn4] }

/-- Store obtained by adding `tbl4` and then pruning the registered table's
scoped variables (the `closeDocument` sequence). -/
def st4 : Store := (Store.empty.add tbl4).pruneTable "t"

/-- A Variable symbol that carries a location (claim C5's disputed case). -/
def varLoc : PhpSymbol :=
  .mk SymbolKind.Variable "$w" 0 "" Option.none [] (Option.some (mkLoc 1 0)) []

/-- Symbol table whose only symbol is a located variable. -/
def tblV : SymbolTable :=
  { uri := "t", root := .mk SymbolKind.File "" 0 "" Option.none [] Option.none [varLoc] }

/-- The candidate predicate of `findBaseMember`: same kind, same modifiers,
same name — compared case-insensitively for methods. -/
def baseMemberPred (symbol : PhpSymbol) : PhpSymbol → Bool :=
  if symbol.kind = SymbolKind.Method then
    fun s => decide (s.kind = symbol.kind) && decide (s.modifiers = symbol.modifiers) &&
      (strToLower symbol.name == strToLower s.name)
  else
    fun s => decide (s.kind = symbol.kind) && decide (s.modifiers = symbol.modifiers) &&
      (symbol.name == s.name)

/-- Exactness of a store's name index, as maintained by `add`/`remove` over
parser-contract tables: every bucket stub resolves inside its registered
owning table to an indexable symbol of a valid kind carrying the bucket's
key, and every indexable symbol of every registered table carries a location
hashing to its registry key, resolves back to itself by start position, and
has its stub in each of its keys' buckets. -/
def Store.wellFormed (st : Store) : Bool :=
  (st.symbolIndex.entries.all (fun e => e.2.all (fun loc =>
    match st.resolveStub loc with
    | Option.some x =>
      indexableFilter x && validKind x.kind && (symbolKeys x).contains e.1
    | Option.none => false))) &&
  (st.tableIndex.all (fun p =>
    decide (st.lookupTable p.1 = Option.some p.2) &&
    p.2.indexedNodes.all (fun x =>
      validKind x.kind &&
      match x.location with
      | Option.some l =>
        decide (l.uriHash = p.1) &&
        decide (findByStart p.2.root l.range.start = Option.some x) &&
        (symbolKeys x).all (fun k =>
          (st.symbolIndex.getBucket k).contains
            { uriHash := l.uriHash, start := l.range.start })
      | Option.none => false)))

/-- A symbol is indexed in a store when it is one of the indexable nodes of a
registered table. -/
def Store.indexedSymbol (st : Store) (x : PhpSymbol) : Prop :=
  ∃ p ∈ st.tableIndex, x ∈ p.2.indexedNodes

/-- The matching rule of claim C1, written from the claim: byte-exact for
Constant and Variable kinds, case-insensitive for every other kind. -/
def specFindMatches (text : String) (x : PhpSymbol) : Prop :=
  if x.kind = SymbolKind.Constant ∨ x.kind = SymbolKind.Variable then x.name = text
  else strToLower x.name = strToLower text

/-- Index-eligibility exactly as claim C5 words it: not Parameter-kind, not
File-kind, not a Variable without a location, not Use-marked, non-empty
name. -/
def specClaimIndexFilter (s : PhpSymbol) : Bool :=
  !decide (s.kind = SymbolKind.Parameter) && !decide (s.kind = SymbolKind.File) &&
  !(decide (s.kind = SymbolKind.Variable) && decide (s.location = Option.none)) &&
  decide ((s.modifiers &&& SymbolModifier.Use) = 0) && decide (s.name ≠ "")

/-- Index-eligibility as the amended claim words it: not Parameter-kind, not
File-kind, not Variable-kind at all, not Use-marked, non-empty name. -/
def specAmendedIndexFilter (s : PhpSymbol) : Bool :=
  !decide (s.kind = SymbolKind.Parameter) && !decide (s.kind = SymbolKind.File) &&
  !decide (s.kind = SymbolKind.Variable) &&
  decide ((s.modifiers &&& SymbolModifier.Use) = 0) && decide (s.name ≠ "")

theorem PhpSymbol.preorder_ne_nil (s : PhpSymbol) : s.preorder ≠ [] := by
  cases s with
  | mk k n m sc d a l c => rw [PhpSymbol.preorder]; simp

theorem PhpSymbol.self_mem_preorder (s : PhpSymbol) : s ∈ s.preorder := by
  cases s with
  | mk k n m sc d a l c => rw [PhpSymbol.preorder]; exact List.mem_cons_self _ _

theorem mem_dedupAux [DecidableEq α] (y : α) :
    ∀ (xs seen : List α), y ∈ dedupAux seen xs ↔ y ∈ xs ∧ y ∉ seen := by
  intro xs
  induction xs with
  | nil => intro seen; simp [dedupAux]
  | cons x xs ih =>
    intro seen
    rw [dedupAux]
    by_cases hx : x ∈ seen
    · simp only [if_pos hx, ih seen, List.mem_cons]
      constructor
      · tauto
      · rintro ⟨h1 | h1, h2⟩
        · exact absurd (h1 ▸ hx) h2
        · exact ⟨h1, h2⟩
    · simp only [if_neg hx, List.mem_cons, ih (x :: seen)]
      by_cases hxy : y = x
      · subst hxy; tauto
      · tauto

theorem mem_dedupFirst [DecidableEq α] (y : α) (xs : List α) :
    y ∈ dedupFirst xs ↔ y ∈ xs := by
  rw [dedupFirst, mem_dedupAux]; simp

theorem nodup_dedupAux [DecidableEq α] :
    ∀ (xs seen : List α), (dedupAux seen xs).Nodup := by
  intro xs
  induction xs with
  | nil => intro seen; simp [dedupAux]
  | cons x xs ih =>
    intro seen
    rw [dedupAux]
    by_cases hx : x ∈ seen
    · simpa [hx] using ih seen
    · simp only [if_neg hx, List.nodup_cons]
      refine ⟨fun hc => ?_, ih (x :: seen)⟩
      exact ((mem_dedupAux x xs (x :: seen)).mp hc).2 (List.mem_cons_self _ _)

theorem nodup_dedupFirst [DecidableEq α] (xs : List α) : (dedupFirst xs).Nodup :=
  nodup_dedupAux xs []

theorem mem_of_findByStart {root : PhpSymbol} {p : DocPos} {s : PhpSymbol}
    (h : findByStart root p = some s) : s ∈ root.preorder :=
  List.mem_of_find?_eq_some h

theorem find_subset_filter {st : Store} {text : String} {f : PhpSymbol → Bool}
    {s : PhpSymbol} (h : s ∈ st.find text f) : f s = true := by
  rw [Store.find] at h
  by_cases ht : text = ""
  · simp [ht] at h
  · simp only [if_neg ht, List.mem_filter, Bool.and_eq_true] at h
    exact h.2.1

theorem find_subset_allSymbols {st : Store} {text : String} {f : PhpSymbol → Bool}
    {s : PhpSymbol} (h : s ∈ st.find text f) : s ∈ st.allSymbols := by
  rw [Store.find] at h
  by_cases ht : text = ""
  · simp [ht] at h
  · simp only [if_neg ht, List.mem_filter] at h
    have h1 := h.1
    rw [Store.indexResultToSymbols, mem_dedupFirst] at h1
    rcases List.mem_filterMap.mp h1 with ⟨loc, _, hres⟩
    rw [Store.resolveStub] at hres
    rcases Option.bind_eq_some.mp hres with ⟨t, hlook, hfind⟩
    have hmem : s ∈ t.root.preorder := mem_of_findByStart hfind
    rw [Store.lookupTable] at hlook
    rcases Option.map_eq_some'.mp hlook with ⟨e, hfinde, het⟩
    have he : e ∈ st.tableIndex := List.mem_of_find?_eq_some hfinde
    rw [Store.allSymbols]
    rw [List.mem_flatten]
    exact ⟨e.2.root.preorder, List.mem_map_of_mem _ he, het ▸ hmem⟩

theorem filter_append_singleton_length_lt [DecidableEq α] {l acc : List α} {a : α}
    (ha : a ∈ l) (hna : a ∉ acc) :
    (l.filter (fun x => x ∉ acc ++ [a])).length < (l.filter (fun x => x ∉ acc)).length := by
  have hsub : List.Sublist (l.filter (fun x => x ∉ acc ++ [a])) (l.filter (fun x => x ∉ acc)) := by
    apply List.monotone_filter_right
    intro x hx
    simp only [List.mem_append, List.mem_singleton, decide_eq_true_eq] at hx ⊢
    intro hc
    exact hx (Or.inl hc)
  have hle := hsub.length_le
  rcases Nat.lt_or_ge (l.filter (fun x => x ∉ acc ++ [a])).length
      (l.filter (fun x => x ∉ acc)).length with h | h
  · exact h
  · exfalso
    have heq : (l.filter (fun x => x ∉ acc ++ [a])).length = (l.filter (fun x => x ∉ acc)).length :=
      Nat.le_antisymm hle h
    have := hsub.eq_of_length heq
    have hmem : a ∈ l.filter (fun x => x ∉ acc) := by
      simp only [List.mem_filter, decide_eq_true_eq]
      exact ⟨ha, hna⟩
    rw [← this] at hmem
    simp only [List.mem_filter, decide_eq_true_eq, List.mem_append, List.mem_singleton] at hmem
    tauto

theorem strToLower_eq (s : String) : s.toLower = strToLower s := by
  show String.map Char.toLower s = strToLower s
  rw [String.map_eq]
  rfl

theorem strToLower_ne_empty {s : String} (h : s ≠ "") : strToLower s ≠ "" := by
  intro hc
  apply h
  have h2 : s.data.map Char.toLower = [] := by
    have := congrArg String.data hc
    simpa [strToLower] using this
  have h3 : s.data = [] := List.map_eq_nil_iff.mp h2
  cases s
  simp_all

/-- Loop of `TypeAggregate._getAssociated`: breadth-first resolution of the
`associated` stub queue; a stub is resolved by an exact store lookup filtered
to class-like kinds, resolved symbols already collected are skipped, newly
collected symbols enqueue their own stubs.  The loop terminates because each
round either shortens the queue or collects a store symbol not collected
before. -/
def Store.assocLoop (st : Store) (excludeTraits : Bool) :
    List PhpSymbol → List PhpSymbol → List PhpSymbol
  | acc, [] => acc
  | acc, stub :: rest =>
    if excludeTraits = true ∧ stub.kind = SymbolKind.Trait then
      st.assocLoop excludeTraits acc rest
    else
      match hfind : (st.find stub.name isClassLikeB).head? with
      | none => st.assocLoop excludeTraits acc rest
      | some sym =>
        if sym ∈ acc then st.assocLoop excludeTraits acc rest
        else st.assocLoop excludeTraits (acc ++ [sym]) (rest ++ sym.associated)
termination_by acc queue => ((st.allSymbols.filter (fun x => x ∉ acc)).length, queue.length)
decreasing_by
  · apply Prod.Lex.right
    simp
  · apply Prod.Lex.right
    simp
  · apply Prod.Lex.right
    simp
  · apply Prod.Lex.left
    apply filter_append_singleton_length_lt
    · exact find_subset_allSymbols (List.mem_of_mem_head? hfind)
    · assumption

namespace TypeAggregate

/-- The `TypeAggregate` constructor: throws `Invalid Argument` unless the
symbol is present and class-like. -/
def make (store : Store) (symbol : Option PhpSymbol) (excludeTraits : Bool) :
    Except String TypeAggregate :=
  match symbol with
  | Option.none => Except.error "Invalid Argument"
  | Option.some s =>
    if (s.kind &&& (SymbolKind.Class ||| SymbolKind.Interface ||| SymbolKind.Trait)) ≠ 0 then
      Except.ok { symbolStore := store, symbol := s, excludeTraits := excludeTraits }
    else Except.error "Invalid Argument"

/-- `TypeAggregate.create(store, fqn)`: `null` for an empty name, otherwise
an exact class-like lookup; `null` when nothing is found, else the
constructor applied to the first hit. -/
def create (store : Store) (fqn : String) : Except String (Option TypeAggregate) :=
  if fqn = "" then Except.ok Option.none
  else
    match (store.find fqn isClassLikeB).head? with
    | Option.none => Except.ok Option.none
    | Option.some s => (make store (Option.some s) false).map Option.some

/-- `TypeAggregate._getAssociated` (memoisation dropped: the model simply
recomputes the closure). -/
def getAssociated (agg : TypeAggregate) : List PhpSymbol :=
  if agg.symbol.associated = [] then []
  else Store.assocLoop agg.symbolStore agg.excludeTraits [] agg.symbol.associated

/-- `TypeAggregate.associated(filter?)`; an absent filter is the constantly
true one. -/
def associatedFiltered (agg : TypeAggregate) (filter : PhpSymbol → Bool) : List PhpSymbol :=
  agg.getAssociated.filter filter

/-- `TypeAggregate.members(mergeStrategy, predicate?)`: dispatch on the root
kind over `[self, ...closure]`. -/
def members (agg : TypeAggregate) (strategy : MemberMergeStrategy)
    (pred : PhpSymbol → Bool) : List PhpSymbol :=
  if agg.symbol.kind = SymbolKind.Class then
    classMembers (agg.symbol :: agg.getAssociated) strategy pred
  else if agg.symbol.kind = SymbolKind.Interface then
    interfaceMembers (agg.symbol :: agg.getAssociated) pred
  else if agg.symbol.kind = SymbolKind.Trait then
    interfaceMembers (agg.symbol :: agg.getAssociated) pred
  else []

end TypeAggregate

namespace Store

/-- `SymbolStore.findMembers`: split the scope type-string into atomic class
names, aggregate each, concatenate their members and de-duplicate by
identity. -/
def findMembers (st : Store) (scope : String) (strategy : MemberMergeStrategy)
    (pred : PhpSymbol → Bool) : List PhpSymbol :=
  dedupFirst (((atomicClassArray scope).map (fun fqn =>
    match TypeAggregate.create st fqn with
    | Except.ok (Option.some t) => t.members strategy pred
    | _ => [])).flatten)

/-- `SymbolStore.findBaseMember`: for a non-private member symbol with a
scope, the first entry of a Base-strategy member lookup by same kind, same
modifiers and same name (case-insensitive for methods), defaulting to the
input symbol. -/
def findBaseMember (st : Store) (symbol : PhpSymbol) : PhpSymbol :=
  if symbol.scope = "" ∨
      (symbol.kind &&& (SymbolKind.Property ||| SymbolKind.Method ||| SymbolKind.ClassConstant)) = 0 ∨
      (symbol.modifiers &&& SymbolModifier.Private) > 0 then
    symbol
  else
    ((st.findMembers symbol.scope MemberMergeStrategy.base
      (if symbol.kind = SymbolKind.Method then
        fun s => decide (s.kind = symbol.kind) && decide (s.modifiers = symbol.modifiers) &&
          (strToLower symbol.name == strToLower s.name)
      else
        fun s => decide (s.kind = symbol.kind) && decide (s.modifiers = symbol.modifiers) &&
          (symbol.name == s.name))).head?).getD symbol

end Store

theorem lookupTable_eq_none_iff {st : Store} {id : Nat} :
    st.lookupTable id = Option.none ↔ id ∉ st.tableIndex.map (fun e => e.1) := by
  rw [Store.lookupTable, Option.map_eq_none']
  rw [List.find?_eq_none]
  constructor
  · intro h hc
    rcases List.mem_map.mp hc with ⟨e, he, hid⟩
    exact absurd (by simpa using hid) (by simpa using h e he)
  · intro h e he
    simp only [decide_eq_true_eq]
    intro hc
    exact h (List.mem_map.mpr ⟨e, he, hc⟩)

theorem deleteTableEntry_not_mem (l : List (Nat × SymbolTable)) (id : Nat) :
    id ∉ (Store.deleteTableEntry l id).map (fun e => e.1) := by
  intro hc
  rcases List.mem_map.mp hc with ⟨e, he, hid⟩
  rw [Store.deleteTableEntry, List.mem_filter] at he
  have := he.2
  simp only [decide_eq_true_eq] at this
  exact this hid

theorem setTableEntry_eq_append {l : List (Nat × SymbolTable)} {id : Nat} {t : SymbolTable}
    (h : id ∉ l.map (fun e => e.1)) : Store.setTableEntry l id t = l ++ [(id, t)] := by
  induction l with
  | nil => rfl
  | cons e es ih =>
    rw [Store.setTableEntry]
    simp only [List.map_cons, List.mem_cons] at h
    push_neg at h
    rw [if_neg (fun hc => h.1 hc.symm)]
    rw [ih h.2]
    rfl

theorem remove_not_mem (st : Store) (uri : String) :
    uriId uri ∉ (st.remove uri).tableIndex.map (fun e => e.1) := by
  rw [Store.remove]
  cases hl : st.lookupTable (uriId uri) with
  | none =>
    simp only []
    exact lookupTable_eq_none_iff.mp hl
  | some t =>
    simp only []
    exact deleteTableEntry_not_mem _ _

theorem sum_deleteTableEntry {l : List (Nat × SymbolTable)} {id : Nat} {t : SymbolTable}
    (hnd : (l.map (fun e => e.1)).Nodup)
    (hl : (l.find? (fun e => decide (e.1 = id))).map (fun e => e.2) = some t) :
    ((Store.deleteTableEntry l id).map (fun e => (e.2.symbolCount : Int))).sum
      = (l.map (fun e => (e.2.symbolCount : Int))).sum - (t.symbolCount : Int) := by
  induction l with
  | nil => simp [List.find?] at hl
  | cons e es ih =>
    rw [List.map_cons, List.nodup_cons] at hnd
    by_cases hid : e.1 = id
    · rw [List.find?_cons_of_pos _ (by simpa using hid)] at hl
      simp only [Option.map_some'] at hl
      injection hl with hl
      rw [Store.deleteTableEntry, List.filter_cons]
      rw [if_neg (by simpa using hid)]
      have hes : es.filter (fun x => x.1 ≠ id) = es := by
        apply List.filter_eq_self.mpr
        intro a ha
        simp only [ne_eq, decide_eq_true_eq, decide_not, Bool.not_eq_false']
        rw [Bool.not_eq_true', decide_eq_false_iff_not]
        intro hc
        apply hnd.1
        rw [hid, ← hc]
        exact List.mem_map.mpr ⟨a, ha, rfl⟩
      rw [show Store.deleteTableEntry es id = es.filter (fun x => x.1 ≠ id) from rfl] at *
      rw [hes, List.map_cons, List.sum_cons, hl]
      ring
    · rw [List.find?_cons_of_neg _ (by simpa using hid)] at hl
      rw [Store.deleteTableEntry, List.filter_cons, if_pos (by simpa using hid)]
      rw [List.map_cons, List.sum_cons, List.map_cons, List.sum_cons]
      rw [show Store.deleteTableEntry es id = es.filter (fun x => x.1 ≠ id) from rfl] at ih
      rw [ih hnd.2 hl]
      ring

/-- Preservation of the registry/count invariant by `remove`. -/
theorem remove_preserves {st : Store} (uri : String)
    (h : (st.tableIndex.map (fun e => e.1)).Nodup ∧ st.symbolCount = st.sumTableCounts) :
    ((st.remove uri).tableIndex.map (fun e => e.1)).Nodup ∧
      (st.remove uri).symbolCount = (st.remove uri).sumTableCounts := by
  cases hl : st.lookupTable (uriId uri) with
  | none => rw [Store.remove, hl]; exact h
  | some t =>
    rw [Store.remove, hl]
    constructor
    · exact h.1.sublist ((List.filter_sublist _).map _)
    · show st.symbolCount - (t.symbolCount : Int) = Store.sumTableCounts _
      rw [Store.sumTableCounts]
      rw [sum_deleteTableEntry h.1 hl]
      rw [h.2]
      rfl

/-- Preservation of the registry/count invariant by `add`. -/
theorem add_preserves {st : Store} (t : SymbolTable)
    (h : (st.tableIndex.map (fun e => e.1)).Nodup ∧ st.symbolCount = st.sumTableCounts) :
    ((st.add t).tableIndex.map (fun e => e.1)).Nodup ∧
      (st.add t).symbolCount = (st.add t).sumTableCounts := by
  have h1 := remove_preserves t.uri h
  have hnm := remove_not_mem st t.uri
  rw [Store.add]
  have happ := @setTableEntry_eq_append (st.remove t.uri).tableIndex
    (uriId t.uri) t hnm
  constructor
  · show ((Store.setTableEntry (st.remove t.uri).tableIndex (uriId t.uri) t).map
      (fun e => e.1)).Nodup
    rw [happ]
    rw [List.map_append]
    rw [List.nodup_append]
    refine ⟨h1.1, by simp, ?_⟩
    intro a ha
    simp only [List.map_cons, List.map_nil, List.mem_singleton]
    intro hc
    exact hnm (hc ▸ ha)
  · show (st.remove t.uri).symbolCount + (t.symbolCount : Int) = Store.sumTableCounts _
    rw [Store.sumTableCounts]
    show _ = ((Store.setTableEntry (st.remove t.uri).tableIndex (uriId t.uri) t).map
      (fun e => (e.2.symbolCount : Int))).sum
    rw [happ, List.map_append, List.sum_append, h1.2]
    simp [Store.sumTableCounts]

/-- The registry/count invariant over all add/remove-reachable stores. -/
theorem reachable_invariant {st : Store} (h : Reachable st) :
    (st.tableIndex.map (fun e => e.1)).Nodup ∧ st.symbolCount = st.sumTableCounts := by
  induction h with
  | empty => constructor <;> simp [Store.empty, Store.sumTableCounts]
  | add t _ ih => exact add_preserves t ih
  | remove uri _ ih => exact remove_preserves uri ih


theorem getBucket_nil (k : String) : NameIndex.getBucket ⟨[]⟩ k = [] := rfl

theorem getBucket_cons (e : String × List HashedStartLocation)
    (es : List (String × List HashedStartLocation)) (k : String) :
    NameIndex.getBucket ⟨e :: es⟩ k =
      if e.1 = k then e.2 else NameIndex.getBucket ⟨es⟩ k := by
  rw [NameIndex.getBucket]
  by_cases h : e.1 = k
  · rw [List.find?_cons_of_pos _ (by simpa using h), if_pos h]
  · rw [List.find?_cons_of_neg _ (by simpa using h), if_neg h]
    rfl

theorem getBucket_not_mem {l : List (String × List HashedStartLocation)} {k : String}
    (h : k ∉ l.map (fun e => e.1)) : NameIndex.getBucket ⟨l⟩ k = [] := by
  induction l with
  | nil => rfl
  | cons e es ih =>
    simp only [List.map_cons, List.mem_cons] at h
    push_neg at h
    rw [getBucket_cons, if_neg (fun hc => h.1 hc.symm)]
    exact ih h.2

theorem getBucket_addKeyEntries (loc : HashedStartLocation) :
    ∀ (l : List (String × List HashedStartLocation)) (k k' : String),
    NameIndex.getBucket ⟨NameIndex.addKeyEntries loc l k⟩ k' =
      if k' = k then NameIndex.getBucket ⟨l⟩ k' ++ [loc] else NameIndex.getBucket ⟨l⟩ k' := by
  intro l
  induction l with
  | nil =>
    intro k k'
    show NameIndex.getBucket ⟨[(k, [loc])]⟩ k' = _
    rw [getBucket_cons]
    by_cases h : k' = k
    · rw [if_pos h.symm, if_pos h]; rfl
    · rw [if_neg (fun hc => h hc.symm), if_neg h]
  | cons e es ih =>
    intro k k'
    rw [NameIndex.addKeyEntries]
    by_cases he : e.1 = k
    · rw [if_pos he]
      rw [getBucket_cons, getBucket_cons]
      by_cases h : k' = k
      · subst h
        rw [if_pos rfl, if_pos rfl, if_pos he]
      · rw [if_neg (fun hc => h hc.symm), if_neg h]
        rw [if_neg (fun hc : e.1 = k' => h (hc.symm.trans he))]
    · rw [if_neg he]
      rw [getBucket_cons, getBucket_cons]
      by_cases he2 : e.1 = k'
      · have h : k' ≠ k := fun hc => he (he2.trans hc)
        rw [if_pos he2, if_pos he2, if_neg h]
      · rw [if_neg he2, if_neg he2, ih k k']

theorem keys_addKeyEntries (loc : HashedStartLocation) :
    ∀ (l : List (String × List HashedStartLocation)) (k : String),
    (NameIndex.addKeyEntries loc l k).map (fun e => e.1) =
      if k ∈ l.map (fun e => e.1) then l.map (fun e => e.1)
      else l.map (fun e => e.1) ++ [k] := by
  intro l
  induction l with
  | nil => intro k; simp [NameIndex.addKeyEntries]
  | cons e es ih =>
    intro k
    rw [NameIndex.addKeyEntries]
    by_cases he : e.1 = k
    · rw [if_pos he]
      simp only [List.map_cons, List.mem_cons]
      rw [if_pos (Or.inl he.symm), he]
    · rw [if_neg he]
      simp only [List.map_cons, List.mem_cons, ih k]
      by_cases hm : k ∈ es.map (fun e => e.1)
      · rw [if_pos hm, if_pos (Or.inr hm)]
      · have hn : ¬(k = e.1 ∨ k ∈ es.map (fun e => e.1)) := by
          rintro (hc | hc)
          · exact he hc.symm
          · exact hm hc
        rw [if_neg hm, if_neg hn]
        rfl

theorem nodupKeys_addKeyEntries (loc : HashedStartLocation)
    {l : List (String × List HashedStartLocation)} (k : String)
    (h : (l.map (fun e => e.1)).Nodup) :
    ((NameIndex.addKeyEntries loc l k).map (fun e => e.1)).Nodup := by
  rw [keys_addKeyEntries]
  by_cases hm : k ∈ l.map (fun e => e.1)
  · rw [if_pos hm]; exact h
  · rw [if_neg hm]
    simp only [List.nodup_append, List.nodup_cons, List.nodup_nil]
    refine ⟨h, by simp, ?_⟩
    intro a ha
    simp only [List.mem_cons, List.not_mem_nil, or_false]
    intro hc
    exact hm (hc ▸ ha)

theorem keys_removeKeyEntries_sublist (loc : HashedStartLocation) :
    ∀ (l : List (String × List HashedStartLocation)) (k : String),
    List.Sublist ((NameIndex.removeKeyEntries loc l k).map (fun e => e.1))
      (l.map (fun e => e.1)) := by
  intro l
  induction l with
  | nil => intro k; simp [NameIndex.removeKeyEntries]
  | cons e es ih =>
    intro k
    rw [NameIndex.removeKeyEntries]
    by_cases he : e.1 = k
    · rw [if_pos he]
      by_cases hb : e.2.erase loc = []
      · rw [if_pos hb]
        simp only [List.map_cons]
        exact List.sublist_cons_of_sublist _ (List.Sublist.refl _)
      · rw [if_neg hb]
        simp only [List.map_cons]
        rw [← he]
    · rw [if_neg he]
      simp only [List.map_cons]
      exact List.Sublist.cons₂ _ (ih k)

theorem nodupKeys_removeKeyEntries (loc : HashedStartLocation)
    {l : List (String × List HashedStartLocation)} (k : String)
    (h : (l.map (fun e => e.1)).Nodup) :
    ((NameIndex.removeKeyEntries loc l k).map (fun e => e.1)).Nodup :=
  h.sublist (keys_removeKeyEntries_sublist loc l k)

theorem getBucket_removeKeyEntries (loc : HashedStartLocation) :
    ∀ (l : List (String × List HashedStartLocation)) (k k' : String),
    (l.map (fun e => e.1)).Nodup →
    NameIndex.getBucket ⟨NameIndex.removeKeyEntries loc l k⟩ k' =
      if k' = k then (NameIndex.getBucket ⟨l⟩ k').erase loc
      else NameIndex.getBucket ⟨l⟩ k' := by
  intro l
  induction l with
  | nil =>
    intro k k' _
    rw [NameIndex.removeKeyEntries]
    by_cases h : k' = k
    · rw [if_pos h]; rfl
    · rw [if_neg h]
  | cons e es ih =>
    intro k k' hnd
    simp only [List.map_cons, List.nodup_cons] at hnd
    rw [NameIndex.removeKeyEntries]
    by_cases he : e.1 = k
    · rw [if_pos he]
      by_cases hb : e.2.erase loc = []
      · rw [if_pos hb]
        rw [getBucket_cons]
        by_cases h : k' = k
        · subst h
          rw [if_pos rfl, if_pos he, hb]
          exact getBucket_not_mem (he ▸ hnd.1)
        · rw [if_neg h]
          rw [if_neg (fun hc : e.1 = k' => h (hc.symm.trans he))]
      · rw [if_neg hb]
        rw [getBucket_cons, getBucket_cons]
        by_cases h : k' = k
        · subst h
          rw [if_pos rfl, if_pos rfl, if_pos he]
        · rw [if_neg (fun hc => h hc.symm), if_neg h]
          rw [if_neg (fun hc : e.1 = k' => h (hc.symm.trans he))]
    · rw [if_neg he]
      rw [getBucket_cons, getBucket_cons]
      by_cases he2 : e.1 = k'
      · have h : k' ≠ k := fun hc => he (he2.trans hc)
        rw [if_pos he2, if_pos he2, if_neg h]
      · rw [if_neg he2, if_neg he2, ih k k' hnd.2]

theorem getBucket_foldl_addKeyEntries (loc : HashedStartLocation) :
    ∀ (ks : List String) (l : List (String × List HashedStartLocation)) (k : String),
    ks.Nodup →
    NameIndex.getBucket ⟨ks.foldl (NameIndex.addKeyEntries loc) l⟩ k =
      if k ∈ ks then NameIndex.getBucket ⟨l⟩ k ++ [loc] else NameIndex.getBucket ⟨l⟩ k := by
  intro ks
  induction ks with
  | nil => intro l k _; simp
  | cons k0 ks ih =>
    intro l k hnd
    rw [List.nodup_cons] at hnd
    rw [List.foldl_cons]
    rw [ih _ k hnd.2]
    by_cases h : k = k0
    · subst h
      rw [if_neg hnd.1, if_pos (List.mem_cons_self _ _)]
      rw [getBucket_addKeyEntries, if_pos rfl]
    · rw [getBucket_addKeyEntries, if_neg h]
      by_cases hm : k ∈ ks
      · rw [if_pos hm, if_pos (List.mem_cons_of_mem _ hm)]
      · rw [if_neg hm, if_neg (by rw [List.mem_cons]; rintro (hc | hc); exact h hc; exact hm hc)]

theorem nodupKeys_foldl_addKeyEntries (loc : HashedStartLocation) :
    ∀ (ks : List String) (l : List (String × List HashedStartLocation)),
    (l.map (fun e => e.1)).Nodup →
    ((ks.foldl (NameIndex.addKeyEntries loc) l).map (fun e => e.1)).Nodup := by
  intro ks
  induction ks with
  | nil => intro l h; exact h
  | cons k0 ks ih =>
    intro l h
    rw [List.foldl_cons]
    exact ih _ (nodupKeys_addKeyEntries loc k0 h)

theorem getBucket_foldl_removeKeyEntries (loc : HashedStartLocation) :
    ∀ (ks : List String) (l : List (String × List HashedStartLocation)) (k : String),
    ks.Nodup → (l.map (fun e => e.1)).Nodup →
    NameIndex.getBucket ⟨ks.foldl (NameIndex.removeKeyEntries loc) l⟩ k =
      if k ∈ ks then (NameIndex.getBucket ⟨l⟩ k).erase loc else NameIndex.getBucket ⟨l⟩ k := by
  intro ks
  induction ks with
  | nil => intro l k _ _; simp
  | cons k0 ks ih =>
    intro l k hnd hl
    rw [List.nodup_cons] at hnd
    rw [List.foldl_cons]
    rw [ih _ k hnd.2 (nodupKeys_removeKeyEntries loc k0 hl)]
    by_cases h : k = k0
    · subst h
      rw [if_neg hnd.1, if_pos (List.mem_cons_self _ _)]
      rw [getBucket_removeKeyEntries loc _ _ _ hl, if_pos rfl]
    · rw [getBucket_removeKeyEntries loc _ _ _ hl, if_neg h]
      by_cases hm : k ∈ ks
      · rw [if_pos hm, if_pos (List.mem_cons_of_mem _ hm)]
      · rw [if_neg hm, if_neg (by rw [List.mem_cons]; rintro (hc | hc); exact h hc; exact hm hc)]

theorem nodupKeys_foldl_removeKeyEntries (loc : HashedStartLocation) :
    ∀ (ks : List String) (l : List (String × List HashedStartLocation)),
    (l.map (fun e => e.1)).Nodup →
    ((ks.foldl (NameIndex.removeKeyEntries loc) l).map (fun e => e.1)).Nodup := by
  intro ks
  induction ks with
  | nil => intro l h; exact h
  | cons k0 ks ih =>
    intro l h
    rw [List.foldl_cons]
    exact ih _ (nodupKeys_removeKeyEntries loc k0 h)

theorem locsFor_cons (it : KeyedHashedStartLocation) (items : List KeyedHashedStartLocation)
    (k : String) :
    locsFor (it :: items) k =
      if k ∈ it.keys then it.start :: locsFor items k else locsFor items k := by
  rw [locsFor, List.filter_cons]
  by_cases hm : k ∈ it.keys
  · rw [if_pos (by simpa using hm), if_pos hm]; rfl
  · rw [if_neg (by simpa using hm), if_neg hm]; rfl

theorem getBucket_foldl_addItem {items : List KeyedHashedStartLocation}
    (hks : ∀ it ∈ items, it.keys.Nodup) :
    ∀ (idx : NameIndex) (k : String),
    (items.foldl NameIndex.addItem idx).getBucket k = idx.getBucket k ++ locsFor items k := by
  induction items with
  | nil => intro idx k; simp [locsFor]
  | cons it items ih =>
    intro idx k
    rw [List.foldl_cons]
    rw [ih (fun x hx => hks x (List.mem_cons_of_mem _ hx))]
    have hchar : (NameIndex.addItem idx it).getBucket k =
        if k ∈ it.keys then idx.getBucket k ++ [it.start] else idx.getBucket k := by
      show NameIndex.getBucket ⟨it.keys.foldl (NameIndex.addKeyEntries it.start) idx.entries⟩ k = _
      exact getBucket_foldl_addKeyEntries it.start it.keys idx.entries k
        (hks it (List.mem_cons_self _ _))
    rw [hchar, locsFor_cons]
    by_cases hm : k ∈ it.keys
    · rw [if_pos hm, if_pos hm]
      simp
    · rw [if_neg hm, if_neg hm]

theorem nodupKeys_foldl_addItem {items : List KeyedHashedStartLocation} :
    ∀ (idx : NameIndex), idx.nodupKeys → (items.foldl NameIndex.addItem idx).nodupKeys := by
  induction items with
  | nil => intro idx h; exact h
  | cons it items ih =>
    intro idx h
    rw [List.foldl_cons]
    exact ih _ (nodupKeys_foldl_addKeyEntries it.start it.keys idx.entries h)

theorem getBucket_foldl_removeItem {items : List KeyedHashedStartLocation}
    (hks : ∀ it ∈ items, it.keys.Nodup) :
    ∀ (idx : NameIndex) (k : String), idx.nodupKeys →
    (items.foldl NameIndex.removeItem idx).getBucket k =
      (locsFor items k).foldl (fun b l => b.erase l) (idx.getBucket k) := by
  induction items with
  | nil => intro idx k _; simp [locsFor]
  | cons it items ih =>
    intro idx k hnd
    rw [List.foldl_cons]
    have hnd' : (NameIndex.removeItem idx it).nodupKeys :=
      nodupKeys_foldl_removeKeyEntries it.start it.keys idx.entries hnd
    rw [ih (fun x hx => hks x (List.mem_cons_of_mem _ hx)) _ k hnd']
    have hchar : (NameIndex.removeItem idx it).getBucket k =
        if k ∈ it.keys then (idx.getBucket k).erase it.start else idx.getBucket k := by
      show NameIndex.getBucket ⟨it.keys.foldl (NameIndex.removeKeyEntries it.start) idx.entries⟩ k = _
      exact getBucket_foldl_removeKeyEntries it.start it.keys idx.entries k
        (hks it (List.mem_cons_self _ _)) hnd
    rw [hchar, locsFor_cons]
    by_cases hm : k ∈ it.keys
    · rw [if_pos hm, if_pos hm]
      rw [List.foldl_cons]
    · rw [if_neg hm, if_neg hm]

theorem foldl_erase_append [DecidableEq α] :
    ∀ (ls b : List α), (∀ x ∈ ls, x ∉ b) →
    ls.foldl (fun acc x => acc.erase x) (b ++ ls) = b := by
  intro ls
  induction ls with
  | nil => intro b _; simp
  | cons x ls ih =>
    intro b h
    rw [List.foldl_cons]
    have hx : x ∉ b := h x (List.mem_cons_self _ _)
    have : (b ++ x :: ls).erase x = b ++ ls := by
      rw [List.erase_append_right _ hx, List.erase_cons_head]
    rw [this]
    exact ih b (fun y hy => h y (List.mem_cons_of_mem _ hy))

theorem remove_of_lookup_none {st : Store} {uri : String}
    (h : st.lookupTable (uriId uri) = Option.none) : st.remove uri = st := by
  rw [Store.remove, h]

theorem symbolKeys_nodup (s : PhpSymbol) : (symbolKeys s).Nodup := by
  rw [symbolKeys]
  by_cases h : s.kind = SymbolKind.Namespace
  · rw [if_pos h]; exact nodup_dedupFirst _
  · rw [if_neg h]; simp

theorem indexItems_keys_nodup {t : SymbolTable} : ∀ it ∈ t.indexItems, it.keys.Nodup := by
  intro it hit
  rw [SymbolTable.indexItems] at hit
  rcases List.mem_filterMap.mp hit with ⟨s, _, hcr⟩
  cases hl : s.location with
  | none => simp [KeyedHashedStartLocation.create?, hl] at hcr
  | some l =>
    simp only [KeyedHashedStartLocation.create?, hl, Option.some.injEq] at hcr
    rw [← hcr]
    exact symbolKeys_nodup s

theorem getBucket_cases (idx : NameIndex) (k : String) :
    idx.getBucket k = [] ∨ ∃ e ∈ idx.entries, e.1 = k ∧ idx.getBucket k = e.2 := by
  rw [NameIndex.getBucket]
  cases hf : idx.entries.find? (fun e => e.1 = k) with
  | none => left; rfl
  | some e =>
    right
    refine ⟨e, List.mem_of_find?_eq_some hf, ?_, rfl⟩
    have := List.find?_some hf
    simpa using this

/-- Core restoration lemma behind the add-then-remove round trip: on a store
without a table for the URI, whose index keys are duplicate-free and whose
buckets contain none of the new table's stubs, `add` followed by `remove`
restores the registry, the count, and every bucket of the name index. -/
theorem add_then_remove_restore {st : Store} {t : SymbolTable}
    (hU : st.lookupTable (uriId t.uri) = Option.none)
    (hnk : st.symbolIndex.nodupKeys)
    (hfresh : ∀ it ∈ t.indexItems, ∀ e ∈ st.symbolIndex.entries, it.start ∉ e.2) :
    ((st.add t).remove t.uri).tableIndex = st.tableIndex ∧
    ((st.add t).remove t.uri).symbolCount = st.symbolCount ∧
    ∀ k, ((st.add t).remove t.uri).symbolIndex.getBucket k = st.symbolIndex.getBucket k := by
  have hnotmem : uriId t.uri ∉ st.tableIndex.map (fun e => e.1) := lookupTable_eq_none_iff.mp hU
  have hadd : st.add t =
      { tableIndex := st.tableIndex ++ [(uriId t.uri, t)],
        symbolIndex := t.indexItems.foldl NameIndex.addItem st.symbolIndex,
        symbolCount := st.symbolCount + (t.symbolCount : Int) } := by
    rw [Store.add, remove_of_lookup_none hU, setTableEntry_eq_append hnotmem]
  have hlook : (st.add t).lookupTable (uriId t.uri) = some t := by
    rw [hadd]
    show ((st.tableIndex ++ [(uriId t.uri, t)]).find?
        (fun e => e.1 = uriId t.uri)).map (fun e => e.2) = some t
    rw [List.find?_append]
    have h1 : st.tableIndex.find? (fun e => e.1 = uriId t.uri) = Option.none := by
      have := hU
      rw [Store.lookupTable, Option.map_eq_none'] at this
      exact this
    rw [h1]
    simp [List.find?]
  have hrem : (st.add t).remove t.uri =
      { tableIndex := Store.deleteTableEntry (st.add t).tableIndex (uriId t.uri),
        symbolIndex := t.indexItems.foldl NameIndex.removeItem (st.add t).symbolIndex,
        symbolCount := (st.add t).symbolCount - (t.symbolCount : Int) } := by
    rw [Store.remove, hlook]
  refine ⟨?_, ?_, ?_⟩
  · rw [hrem, hadd]
    show Store.deleteTableEntry (st.tableIndex ++ [(uriId t.uri, t)]) (uriId t.uri) = _
    rw [Store.deleteTableEntry, List.filter_append]
    have h2 : st.tableIndex.filter (fun e => e.1 ≠ uriId t.uri) = st.tableIndex := by
      apply List.filter_eq_self.mpr
      intro e he
      simp only [ne_eq, decide_not, Bool.not_eq_false']
      rw [Bool.not_eq_true', decide_eq_false_iff_not]
      intro hc
      exact hnotmem (List.mem_map.mpr ⟨e, he, hc⟩)
    rw [h2]
    simp
  · rw [hrem, hadd]
    show st.symbolCount + (t.symbolCount : Int) - (t.symbolCount : Int) = st.symbolCount
    ring
  · intro k
    rw [hrem, hadd]
    show (t.indexItems.foldl NameIndex.removeItem
        (t.indexItems.foldl NameIndex.addItem st.symbolIndex)).getBucket k =
      st.symbolIndex.getBucket k
    have hks : ∀ it ∈ t.indexItems, it.keys.Nodup := indexItems_keys_nodup
    have hnd1 : (t.indexItems.foldl NameIndex.addItem st.symbolIndex).nodupKeys :=
      nodupKeys_foldl_addItem _ hnk
    rw [getBucket_foldl_removeItem hks _ k hnd1]
    rw [getBucket_foldl_addItem hks st.symbolIndex k]
    apply foldl_erase_append
    intro x hx
    rcases List.mem_map.mp (by exact hx : x ∈ (t.indexItems.filter
        (fun it => k ∈ it.keys)).map (fun it => it.start)) with ⟨it, hitf, hxs⟩
    have hit : it ∈ t.indexItems := List.mem_of_mem_filter hitf
    rcases getBucket_cases st.symbolIndex k with hcase | ⟨e, he, _, heq⟩
    · rw [hcase]; simp
    · rw [heq]
      rw [← hxs]
      exact hfresh it hit e he

theorem assocLoop_nil (st : Store) (et : Bool) (acc : List PhpSymbol) :
    Store.assocLoop st et acc [] = acc :=
  Store.assocLoop.eq_1 st et acc

theorem assocLoop_cons_trait {st : Store} {et : Bool} {stub : PhpSymbol}
    (acc rest : List PhpSymbol) (h : et = true ∧ stub.kind = SymbolKind.Trait) :
    Store.assocLoop st et acc (stub :: rest) = Store.assocLoop st et acc rest := by
  rw [Store.assocLoop.eq_2, if_pos h]

theorem assocLoop_cons_none {st : Store} {et : Bool} {stub : PhpSymbol}
    (acc rest : List PhpSymbol) (h : ¬(et = true ∧ stub.kind = SymbolKind.Trait))
    (hf : (st.find stub.name isClassLikeB).head? = Option.none) :
    Store.assocLoop st et acc (stub :: rest) = Store.assocLoop st et acc rest := by
  rw [Store.assocLoop.eq_2, if_neg h]
  split
  · rfl
  · rename_i sym heq
    rw [hf] at heq
    exact absurd heq (by simp)

theorem assocLoop_cons_mem {st : Store} {et : Bool} {stub sym : PhpSymbol}
    (acc rest : List PhpSymbol) (h : ¬(et = true ∧ stub.kind = SymbolKind.Trait))
    (hf : (st.find stub.name isClassLikeB).head? = Option.some sym) (hm : sym ∈ acc) :
    Store.assocLoop st et acc (stub :: rest) = Store.assocLoop st et acc rest := by
  rw [Store.assocLoop.eq_2, if_neg h]
  split
  · rename_i heq
    rw [hf] at heq
  · rename_i sym2 heq
    rw [hf] at heq
    injection heq with heq
    subst heq
    rw [if_pos hm]

theorem assocLoop_cons_new {st : Store} {et : Bool} {stub sym : PhpSymbol}
    (acc rest : List PhpSymbol) (h : ¬(et = true ∧ stub.kind = SymbolKind.Trait))
    (hf : (st.find stub.name isClassLikeB).head? = Option.some sym) (hm : sym ∉ acc) :
    Store.assocLoop st et acc (stub :: rest) =
      Store.assocLoop st et (acc ++ [sym]) (rest ++ sym.associated) := by
  rw [Store.assocLoop.eq_2, if_neg h]
  split
  · rename_i heq
    rw [hf] at heq
    exact absurd heq (by simp)
  · rename_i sym2 heq
    rw [hf] at heq
    injection heq with heq
    subst heq
    rw [if_neg hm]

theorem assocLoop_nodup (st : Store) (et : Bool) :
    ∀ (acc queue : List PhpSymbol), acc.Nodup → (Store.assocLoop st et acc queue).Nodup := by
  intro acc queue
  induction acc, queue using Store.assocLoop.induct st et with
  | case1 acc =>
    intro h
    rw [assocLoop_nil]
    exact h
  | case2 acc stub rest hsk ih =>
    intro h
    rw [assocLoop_cons_trait _ _ hsk]
    exact ih h
  | case3 acc stub rest hsk hf ih =>
    intro h
    rw [assocLoop_cons_none _ _ hsk hf]
    exact ih h
  | case4 acc stub rest hsk sym hf hm ih =>
    intro h
    rw [assocLoop_cons_mem _ _ hsk hf hm]
    exact ih h
  | case5 acc stub rest hsk sym hf hm ih =>
    intro h
    rw [assocLoop_cons_new _ _ hsk hf hm]
    apply ih
    rw [List.nodup_append]
    refine ⟨h, by simp, ?_⟩
    intro a ha
    simp only [List.mem_cons, List.not_mem_nil, or_false]
    intro hc
    exact hm (hc ▸ ha)

theorem resolveStub_congr {st1 st2 : Store} (htbl : st1.tableIndex = st2.tableIndex) :
    st1.resolveStub = st2.resolveStub := by
  funext loc
  rw [Store.resolveStub, Store.resolveStub, Store.lookupTable, Store.lookupTable, htbl]

theorem find_congr {st1 st2 : Store} (htbl : st1.tableIndex = st2.tableIndex)
    (hbkt : ∀ k, st1.symbolIndex.getBucket k = st2.symbolIndex.getBucket k)
    (text : String) (f : PhpSymbol → Bool) : st1.find text f = st2.find text f := by
  rw [Store.find, Store.find]
  by_cases ht : text = ""
  · rw [if_pos ht, if_pos ht]
  · rw [if_neg ht, if_neg ht]
    show (st1.indexResultToSymbols (st1.symbolIndex.findKey text)).filter _ =
      (st2.indexResultToSymbols (st2.symbolIndex.findKey text)).filter _
    rw [Store.indexResultToSymbols, Store.indexResultToSymbols]
    rw [NameIndex.findKey, NameIndex.findKey, hbkt]
    rw [resolveStub_congr htbl]

theorem getAssociated_eval {agg : TypeAggregate} (h : agg.symbol.associated ≠ []) :
    agg.getAssociated =
      Store.assocLoop agg.symbolStore agg.excludeTraits [] agg.symbol.associated := by
  rw [TypeAggregate.getAssociated, if_neg h]

theorem findMembers_single {st : Store} {scope : String} {agg : TypeAggregate}
    (h1 : atomicClassArray scope = [scope])
    (h2 : TypeAggregate.create st scope = Except.ok (Option.some agg))
    (strategy : MemberMergeStrategy) (pred : PhpSymbol → Bool) :
    st.findMembers scope strategy pred = dedupFirst (agg.members strategy pred) := by
  rw [Store.findMembers, h1]
  simp only [List.map_cons, List.map_nil, h2, List.flatten_cons, List.flatten_nil,
    List.append_nil]

theorem members_eval_of_assoc {agg : TypeAggregate} {l : List PhpSymbol}
    (hk : agg.symbol.kind = SymbolKind.Class) (ha : agg.getAssociated = l)
    (strategy : MemberMergeStrategy) (pred : PhpSymbol → Bool) :
    agg.members strategy pred = classMembers (agg.symbol :: l) strategy pred := by
  rw [TypeAggregate.members, ha, if_pos hk]

theorem st8_assoc : (TypeAggregate.mk st8 cSym false).getAssociated = [iSym] := by
  rw [getAssociated_eval (by decide)]
  show Store.assocLoop st8 false [] [stubI] = [iSym]
  rw [@assocLoop_cons_new st8 false stubI iSym [] [] (by decide) (by decide) (by decide)]
  show Store.assocLoop st8 false [iSym] [] = [iSym]
  exact assocLoop_nil st8 false [iSym]

theorem stX_assoc : (TypeAggregate.mk stX bSym false).getAssociated = [aSym] := by
  rw [getAssociated_eval (by decide)]
  show Store.assocLoop stX false [] [stubA] = [aSym]
  rw [@assocLoop_cons_new stX false stubA aSym [] [] (by decide) (by decide) (by decide)]
  show Store.assocLoop stX false [aSym] [] = [aSym]
  exact assocLoop_nil stX false [aSym]

theorem stC_assoc : (TypeAggregate.mk stC c0Sym false).getAssociated = [b0Sym, a0Sym] := by
  rw [getAssociated_eval (by decide)]
  show Store.assocLoop stC false [] [stubB0] = [b0Sym, a0Sym]
  rw [@assocLoop_cons_new stC false stubB0 b0Sym [] [] (by decide) (by decide) (by decide)]
  show Store.assocLoop stC false [b0Sym] [stubA0] = [b0Sym, a0Sym]
  rw [@assocLoop_cons_new stC false stubA0 a0Sym [b0Sym] [] (by decide) (by decide) (by decide)]
  show Store.assocLoop stC false [b0Sym, a0Sym] [] = [b0Sym, a0Sym]
  exact assocLoop_nil stC false [b0Sym, a0Sym]

theorem stY_assoc : (TypeAggregate.mk stY xSym false).getAssociated = [ySym, xSym] := by
  rw [getAssociated_eval (by decide)]
  show Store.assocLoop stY false [] [stubY] = [ySym, xSym]
  rw [@assocLoop_cons_new stY false stubY ySym [] [] (by decide) (by decide) (by decide)]
  show Store.assocLoop stY false [ySym] [stubX] = [ySym, xSym]
  rw [@assocLoop_cons_new stY false stubX xSym [ySym] [] (by decide) (by decide) (by decide)]
  show Store.assocLoop stY false [ySym, xSym] [stubY] = [ySym, xSym]
  rw [@assocLoop_cons_mem stY false stubY ySym [ySym, xSym] [] (by decide) (by decide)
    (by decide)]
  exact assocLoop_nil stY false [ySym, xSym]

theorem setName_mem : ∀ (m : List (String × PhpSymbol)) (n : String) (v x : PhpSymbol),
    x ∈ (setName m n v).map (fun e => e.2) → x = v ∨ x ∈ m.map (fun e => e.2) := by
  intro m
  induction m with
  | nil =>
    intro n v x h
    rw [setName] at h
    simp at h
    exact Or.inl h
  | cons e es ih =>
    intro n v x h
    rw [setName] at h
    by_cases he : e.1 = n
    · rw [if_pos he] at h
      simp only [List.map_cons, List.mem_cons] at h
      rcases h with h | h
      · exact Or.inl h
      · exact Or.inr (by simp only [List.map_cons, List.mem_cons]; exact Or.inr h)
    · rw [if_neg he] at h
      simp only [List.map_cons, List.mem_cons] at h
      rcases h with h | h
      · exact Or.inr (by simp only [List.map_cons, List.mem_cons]; exact Or.inl h)
      · rcases ih n v x h with h2 | h2
        · exact Or.inl h2
        · exact Or.inr (by simp only [List.map_cons, List.mem_cons]; exact Or.inr h2)

theorem mergeStep_mem {strategy : MemberMergeStrategy} {m : List (String × PhpSymbol)}
    {s x : PhpSymbol} (h : x ∈ (mergeStep strategy m s).map (fun e => e.2)) :
    x = s ∨ x ∈ m.map (fun e => e.2) := by
  rw [mergeStep] at h
  cases hl : lookupName m s.name with
  | none =>
    rw [hl] at h
    exact setName_mem m s.name s x h
  | some mapped =>
    rw [hl] at h
    have h2 : x ∈ (if mergeOverwrite strategy mapped s = true then setName m s.name s
        else m).map (fun e => e.2) := h
    by_cases ho : mergeOverwrite strategy mapped s = true
    · rw [if_pos ho] at h2
      exact setName_mem m s.name s x h2
    · rw [if_neg ho] at h2
      exact Or.inr h2

theorem foldl_mergeStep_mem {strategy : MemberMergeStrategy} :
    ∀ (l : List PhpSymbol) (m : List (String × PhpSymbol)) (x : PhpSymbol),
    x ∈ (l.foldl (mergeStep strategy) m).map (fun e => e.2) →
      x ∈ m.map (fun e => e.2) ∨ x ∈ l := by
  intro l
  induction l with
  | nil => intro m x h; exact Or.inl h
  | cons s l ih =>
    intro m x h
    rw [List.foldl_cons] at h
    rcases ih _ x h with h2 | h2
    · rcases mergeStep_mem h2 with h3 | h3
      · exact Or.inr (h3 ▸ List.mem_cons_self _ _)
      · exact Or.inl h3
    · exact Or.inr (List.mem_cons_of_mem _ h2)

theorem mergeMembers_subset {l : List PhpSymbol} {strategy : MemberMergeStrategy}
    {x : PhpSymbol} (h : x ∈ mergeMembers l strategy) : x ∈ l := by
  rw [mergeMembers] at h
  by_cases hs : strategy = MemberMergeStrategy.none
  · rw [if_pos hs] at h; exact h
  · rw [if_neg hs] at h
    rcases foldl_mergeStep_mem l [] x h with h2 | h2
    · simp at h2
    · exact h2

theorem interfaceMembers_pred {l : List PhpSymbol} {pred : PhpSymbol → Bool}
    {x : PhpSymbol} (h : x ∈ interfaceMembers l pred) : pred x = true := by
  rw [interfaceMembers] at h
  rw [List.mem_flatten] at h
  rcases h with ⟨ms, hms, hx⟩
  rcases List.mem_map.mp hms with ⟨s, _, hs⟩
  rw [← hs] at hx
  exact List.of_mem_filter hx

theorem classCollect_members_pred {pred noPriv : PhpSymbol → Bool} :
    ∀ (l : List PhpSymbol) (b : Bool) (x : PhpSymbol),
    x ∈ (classCollect pred noPriv l b).1 → pred x = true ∨ noPriv x = true := by
  intro l
  induction l with
  | nil => intro b x h; simp [classCollect] at h
  | cons s rest ih =>
    intro b x h
    rw [classCollect] at h
    by_cases ht : s.kind = SymbolKind.Trait
    · rw [if_pos ht] at h
      exact ih false x h
    · rw [if_neg ht] at h
      simp only [List.mem_append] at h
      rcases h with h | h
      · have := List.of_mem_filter h
        cases b with
        | true => exact Or.inl (by simpa using this)
        | false => exact Or.inr (by simpa using this)
      · exact ih false x h

theorem classMembers_pred {assoc : List PhpSymbol} {strategy : MemberMergeStrategy}
    {pred : PhpSymbol → Bool} {x : PhpSymbol} (h : x ∈ classMembers assoc strategy pred) :
    pred x = true := by
  rw [classMembers] at h
  rw [List.mem_append] at h
  rcases h with h | h
  · rcases classCollect_members_pred assoc true x (mergeMembers_subset h) with h2 | h2
    · exact h2
    · simp only [Bool.and_eq_true] at h2
      exact h2.2
  · have h2 := interfaceMembers_pred h
    simp only [Bool.and_eq_true] at h2
    exact h2.2

theorem members_pred {agg : TypeAggregate} {strategy : MemberMergeStrategy}
    {pred : PhpSymbol → Bool} {x : PhpSymbol} (h : x ∈ agg.members strategy pred) :
    pred x = true := by
  rw [TypeAggregate.members] at h
  by_cases h1 : agg.symbol.kind = SymbolKind.Class
  · rw [if_pos h1] at h; exact classMembers_pred h
  · rw [if_neg h1] at h
    by_cases h2 : agg.symbol.kind = SymbolKind.Interface
    · rw [if_pos h2] at h; exact interfaceMembers_pred h
    · rw [if_neg h2] at h
      by_cases h3 : agg.symbol.kind = SymbolKind.Trait
      · rw [if_pos h3] at h; exact interfaceMembers_pred h
      · rw [if_neg h3] at h; simp at h

theorem findMembers_pred {st : Store} {scope : String} {strategy : MemberMergeStrategy}
    {pred : PhpSymbol → Bool} {x : PhpSymbol} (h : x ∈ st.findMembers scope strategy pred) :
    pred x = true := by
  rw [Store.findMembers, mem_dedupFirst, List.mem_flatten] at h
  rcases h with ⟨ms, hms, hx⟩
  rcases List.mem_map.mp hms with ⟨fqn, _, hf⟩
  rw [← hf] at hx
  rcases hcr : TypeAggregate.create st fqn with e | v
  · rw [hcr] at hx; simp at hx
  · cases v with
    | none => rw [hcr] at hx; simp at hx
    | some t =>
      rw [hcr] at hx
      exact members_pred hx

theorem validKind_cases {k : Nat} (hv : validKind k = true) :
    k = SymbolKind.None ∨ k = SymbolKind.Class ∨ k = SymbolKind.Interface ∨
    k = SymbolKind.Trait ∨ k = SymbolKind.Constant ∨ k = SymbolKind.Property ∨
    k = SymbolKind.Method ∨ k = SymbolKind.Function ∨ k = SymbolKind.Parameter ∨
    k = SymbolKind.Variable ∨ k = SymbolKind.Namespace ∨ k = SymbolKind.ClassConstant ∨
    k = SymbolKind.Constructor ∨ k = SymbolKind.File := by
  rw [validKind] at hv
  simp only [Bool.or_eq_true, decide_eq_true_eq] at hv
  tauto

theorem indexable_eq_amended_of_valid {x : PhpSymbol} (hv : validKind x.kind = true) :
    indexableFilter x = specAmendedIndexFilter x := by
  rw [indexableFilter, specAmendedIndexFilter]
  have hmask : decide ((x.kind &&& (SymbolKind.Parameter ||| SymbolKind.File |||
        SymbolKind.Variable)) = 0)
      = (!decide (x.kind = SymbolKind.Parameter) && !decide (x.kind = SymbolKind.File) &&
         !decide (x.kind = SymbolKind.Variable)) := by
    rcases validKind_cases hv with h|h|h|h|h|h|h|h|h|h|h|h|h|h <;> rw [h] <;> decide
  rw [hmask]

theorem classlike_mask_iff {k : Nat} (hv : validKind k = true) :
    ((k &&& (SymbolKind.Class ||| SymbolKind.Interface ||| SymbolKind.Trait)) ≠ 0) ↔
      (k = SymbolKind.Class ∨ k = SymbolKind.Interface ∨ k = SymbolKind.Trait) := by
  rcases validKind_cases hv with h|h|h|h|h|h|h|h|h|h|h|h|h|h <;> rw [h] <;> decide

theorem findKindMask_iff {k : Nat} (hv : validKind k = true) :
    ((k &&& Store.findKindMask) > 0) ↔ (k = SymbolKind.Constant ∨ k = SymbolKind.Variable) := by
  rcases validKind_cases hv with h|h|h|h|h|h|h|h|h|h|h|h|h|h <;> rw [h] <;> decide

theorem stX_fbm : Store.findBaseMember stX mB = mB := by
  rw [Store.findBaseMember, if_neg (by decide),
    if_pos (show mB.kind = SymbolKind.Method by decide)]
  rw [findMembers_single (show atomicClassArray mB.scope = [mB.scope] by decide)
    (show TypeAggregate.create stX mB.scope =
      Except.ok (Option.some (TypeAggregate.mk stX bSym false)) from rfl)]
  rw [members_eval_of_assoc (by decide) stX_assoc]
  decide

theorem stC_fbm : Store.findBaseMember stC nC = nA := by
  rw [Store.findBaseMember, if_neg (by decide),
    if_pos (show nC.kind = SymbolKind.Method by decide)]
  rw [findMembers_single (show atomicClassArray nC.scope = [nC.scope] by decide)
    (show TypeAggregate.create stC nC.scope =
      Except.ok (Option.some (TypeAggregate.mk stC c0Sym false)) from rfl)]
  rw [members_eval_of_assoc (by decide) stC_assoc]
  decide

theorem stX_members_none :
    stX.findMembers "B" MemberMergeStrategy.none isMethod = [mB, mA] := by
  rw [findMembers_single (show atomicClassArray "B" = ["B"] by decide)
    (show TypeAggregate.create stX "B" =
      Except.ok (Option.some (TypeAggregate.mk stX bSym false)) from rfl)]
  rw [members_eval_of_assoc (by decide) stX_assoc]
  decide

theorem remove_remove (st : Store) (uri : String) :
    (st.remove uri).remove uri = st.remove uri :=
  remove_of_lookup_none (lookupTable_eq_none_iff.mpr (remove_not_mem st uri))

/-- C2: on a store that already holds a table for the table's URI, `add`
yields the same state as `remove` followed by `add` on the table-free state;
`add` is total, so no duplicate-key error can be raised. -/
theorem claim_C2_add_replaces (st : Store) (t : SymbolTable)
    (h : st.lookupTable (uriId t.uri) ≠ Option.none) :
    st.add t = (st.remove t.uri).add t := by
  rw [Store.add, Store.add, remove_remove]

/-- Witness for C2 at a store that holds a table for the URI. -/
theorem claim_C2_witness : st8.add tbl8 = (st8.remove tbl8.uri).add tbl8 :=
  claim_C2_add_replaces st8 tbl8 (by decide)

/-- C3: adding a not-yet-registered table and then removing its URI restores
the global symbol count, and `find` answers every query exactly as on the
original store (no name of the table remains findable). -/
theorem claim_C3_add_remove_roundtrip (st : Store) (t : SymbolTable)
    (hU : st.lookupTable (uriId t.uri) = Option.none)
    (hnk : st.symbolIndex.nodupKeys)
    (hfresh : ∀ it ∈ t.indexItems, ∀ e ∈ st.symbolIndex.entries, it.start ∉ e.2) :
    ((st.add t).remove t.uri).symbolCount = st.symbolCount ∧
    ∀ (text : String) (f : PhpSymbol → Bool),
      ((st.add t).remove t.uri).find text f = st.find text f := by
  obtain ⟨h1, h2, h3⟩ := add_then_remove_restore hU hnk hfresh
  exact ⟨h2, fun text f => find_congr h1 h3 text f⟩

/-- Witness for C3: the round trip on the empty store. -/
theorem claim_C3_witness :
    ((Store.empty.add tbl8).remove tbl8.uri).symbolCount = Store.empty.symbolCount ∧
    ∀ (text : String) (f : PhpSymbol → Bool),
      ((Store.empty.add tbl8).remove tbl8.uri).find text f = Store.empty.find text f :=
  claim_C3_add_remove_roundtrip Store.empty tbl8 (by decide) (by decide) (by decide)

/-- C4 counterexample: from the empty store, `add` a table whose function
holds a scoped variable (store count 2), then run `pruneScopedVars` on the
registered table as `closeDocument` does; the store still reports 2 symbols
while the sum of per-table counts is 1, so the claimed invariant fails on a
state reachable with the claim's own operation set. -/
theorem claim_C4_counterexample :
    ReachablePrune st4 ∧ st4.symbolCount ≠ st4.sumTableCounts := by
  constructor
  · exact ReachablePrune.prune "t" (ReachablePrune.add tbl4 ReachablePrune.empty) (by decide)
  · decide

/-- C4 amended: over every store reachable from the empty store by `add` and
`remove` alone, the running symbol count equals the sum of the per-table
symbol counts. -/
theorem claim_C4_amended {st : Store} (h : Reachable st) :
    st.symbolCount = st.sumTableCounts :=
  (reachable_invariant h).2

/-- Witness for C4 at a concretely reached store. -/
theorem claim_C4_witness :
    (Store.empty.add tbl8).symbolCount = (Store.empty.add tbl8).sumTableCounts :=
  claim_C4_amended (Reachable.add tbl8 Reachable.empty)

/-- C5 counterexample: a Variable carrying a location passes the claim's
eligibility predicate, yet `add`'s `IndexableSymbolVisitor` never indexes a
Variable, so the indexed-node set differs from the claim's filter already on
a one-variable table. -/
theorem claim_C5_counterexample :
    specClaimIndexFilter varLoc = true ∧ indexableFilter varLoc = false ∧
    tblV.indexedNodes ≠ tblV.root.preorder.filter specClaimIndexFilter := by
  refine ⟨by decide, by decide, by decide⟩

/-- C5 amended: for every table whose nodes carry valid kinds, `add` indexes
exactly the nodes that are not Parameter-kind, not File-kind, not
Variable-kind at all, not Use-marked, and have a non-empty name. -/
theorem claim_C5_amended (t : SymbolTable)
    (h : ∀ x ∈ t.root.preorder, validKind x.kind = true) :
    t.indexedNodes = t.root.preorder.filter specAmendedIndexFilter := by
  rw [SymbolTable.indexedNodes]
  apply List.filter_congr
  intro x hx
  exact indexable_eq_amended_of_valid (h x hx)

/-- Witness for C5 on the scenario table. -/
theorem claim_C5_witness :
    tbl8.indexedNodes = tbl8.root.preorder.filter specAmendedIndexFilter :=
  claim_C5_amended tbl8 (by decide)

/-- C6: the direct `TypeAggregate` constructor raises an invalid-argument
error exactly when the symbol is absent or (over valid kinds) not Class,
Interface or Trait; the factory `create` never raises and yields no
aggregate exactly when the name is empty or the class-like exact lookup
finds nothing. -/
theorem claim_C6_constructor_and_factory :
    (∀ (st : Store) (sym : Option PhpSymbol) (et : Bool),
      (∀ s, sym = Option.some s → validKind s.kind = true) →
      ((∃ e, TypeAggregate.make st sym et = Except.error e) ↔
        (sym = Option.none ∨ ∀ s, sym = Option.some s →
          ¬(s.kind = SymbolKind.Class ∨ s.kind = SymbolKind.Interface ∨
            s.kind = SymbolKind.Trait)))) ∧
    (∀ (st : Store) (fqn : String), ∃ v, TypeAggregate.create st fqn = Except.ok v ∧
      (v = Option.none ↔ (fqn = "" ∨ st.find fqn isClassLikeB = []))) := by
  constructor
  · intro st sym et hval
    cases sym with
    | none =>
      constructor
      · intro _; exact Or.inl rfl
      · intro _; exact ⟨"Invalid Argument", rfl⟩
    | some s =>
      have hv := hval s rfl
      rw [TypeAggregate.make]
      by_cases hm : (s.kind &&& (SymbolKind.Class ||| SymbolKind.Interface |||
          SymbolKind.Trait)) ≠ 0
      · rw [if_pos hm]
        constructor
        · rintro ⟨e, he⟩
          exact absurd he (by simp)
        · rintro (hc | hall)
          · exact absurd hc (by simp)
          · exact absurd ((classlike_mask_iff hv).mp hm) (hall s rfl)
      · rw [if_neg hm]
        constructor
        · intro _
          right
          intro s2 hs2
          injection hs2 with hs2
          subst hs2
          intro henum
          exact hm ((classlike_mask_iff hv).mpr henum)
        · intro _
          exact ⟨"Invalid Argument", rfl⟩
  · intro st fqn
    by_cases hf : fqn = ""
    · refine ⟨Option.none, ?_, ?_⟩
      · rw [TypeAggregate.create, if_pos hf]
      · simp [hf]
    · cases hh : (st.find fqn isClassLikeB).head? with
      | none =>
        refine ⟨Option.none, ?_, ?_⟩
        · rw [TypeAggregate.create, if_neg hf, hh]
        · constructor
          · intro _
            right
            exact List.head?_eq_none_iff.mp hh
          · intro _
            rfl
      | some s =>
        have hcl : isClassLikeB s = true :=
          find_subset_filter (List.mem_of_mem_head? hh)
        have hmask : (s.kind &&& (SymbolKind.Class ||| SymbolKind.Interface |||
            SymbolKind.Trait)) ≠ 0 := by
          rw [isClassLikeB] at hcl
          exact of_decide_eq_true hcl
        refine ⟨Option.some (TypeAggregate.mk st s false), ?_, ?_⟩
        · rw [TypeAggregate.create, if_neg hf, hh]
          show ((if (s.kind &&& (SymbolKind.Class ||| SymbolKind.Interface |||
              SymbolKind.Trait)) ≠ 0 then
                Except.ok (TypeAggregate.mk st s false)
              else Except.error "Invalid Argument").map Option.some :
                Except String (Option TypeAggregate)) = _
          rw [if_pos hmask]
          rfl
        · constructor
          · intro hc
            exact absurd hc (by simp)
          · rintro (hc | hc)
            · exact absurd hc hf
            · rw [hc] at hh
              simp [List.head?] at hh

/-- Witness for C6's constructor part at a concrete non-class-like symbol. -/
theorem claim_C6_witness :
    (∃ e, TypeAggregate.make st8 (Option.some fI) false = Except.error e) ↔
      (Option.some fI = Option.none ∨ ∀ s, Option.some fI = Option.some s →
        ¬(s.kind = SymbolKind.Class ∨ s.kind = SymbolKind.Interface ∨
          s.kind = SymbolKind.Trait)) :=
  claim_C6_constructor_and_factory.1 st8 (Option.some fI) false
    (by intro s hs; injection hs with hs; rw [← hs]; decide)

/-- C7: on every store (the cyclic `X ↔ Y` store included), the `associated`
closure computation terminates — it is a total function of the embedding,
with termination proved from the finiteness of the store — and never lists a
resolved symbol twice; on the mutually-referential pair it returns exactly
the two classes. -/
theorem claim_C7_associated_terminates_nodup :
    (∀ (st : Store) (root : PhpSymbol) (et : Bool) (f : PhpSymbol → Bool),
      ((TypeAggregate.mk st root et).associatedFiltered f).Nodup) ∧
    (TypeAggregate.mk stY xSym false).getAssociated = [ySym, xSym] := by
  constructor
  · intro st root et f
    apply List.Nodup.filter
    rw [TypeAggregate.getAssociated]
    by_cases h : (TypeAggregate.mk st root et).symbol.associated = []
    · rw [if_pos h]
      exact List.nodup_nil
    · rw [if_neg h]
      exact assocLoop_nodup st et [] _ List.nodup_nil
  · exact stY_assoc

/-- C8: in the store indexing exactly `interface I { function f(); }` and
`class C implements I { function f(){} function g(){} }`, the member query
with the None strategy returns the three entries `f` of `C`, `g` of `C` and
`f` of `I` (no de-duplication across the interface pass), and the Override
strategy collapses them to `f` of `C` and `g` of `C`. -/
theorem claim_C8_findMembers_scenario :
    st8.findMembers "C" MemberMergeStrategy.none isMethod = [fC, gC, fI] ∧
    st8.findMembers "C" MemberMergeStrategy.override isMethod = [fC, gC] := by
  constructor
  · rw [findMembers_single (show atomicClassArray "C" = ["C"] by decide)
      (show TypeAggregate.create st8 "C" =
        Except.ok (Option.some (TypeAggregate.mk st8 cSym false)) from rfl)]
    rw [members_eval_of_assoc (by decide) st8_assoc]
    decide
  · rw [findMembers_single (show atomicClassArray "C" = ["C"] by decide)
      (show TypeAggregate.create st8 "C" =
        Except.ok (Option.some (TypeAggregate.mk st8 cSym false)) from rfl)]
    rw [members_eval_of_assoc (by decide) st8_assoc]
    decide

/-- C10: `find` and `match` never return the same symbol twice, whatever the
store, the query and the filter: stub resolution funnels through a JS `Set`
keyed by identity before the per-call filters run. -/
theorem claim_C10_results_duplicate_free (st : Store) (text : String)
    (f : PhpSymbol → Bool) :
    (st.find text f).Nodup ∧ (st.matchText text f).Nodup := by
  constructor
  · rw [Store.find]
    by_cases ht : text = ""
    · rw [if_pos ht]
      exact List.nodup_nil
    · rw [if_neg ht]
      exact List.Nodup.filter _ (nodup_dedupFirst _)
  · rw [Store.matchText]
    by_cases ht : text = ""
    · rw [if_pos ht]
      exact List.nodup_nil
    · rw [if_neg ht]
      exact List.Nodup.filter _ (nodup_dedupFirst _)

/-- C9 (amended): `findBaseMember` returns the input unchanged whenever the
preconditions fail (no scope, wrong kind, private); in every case it returns
either the input or a declaration of the same kind, the same modifiers and
the same name (case-insensitive for methods); and on a chain where a method
is overridden twice under byte-identical names it returns the top-most
ancestor's declaration, not an intermediate override. -/
theorem claim_C9_findBaseMember :
    (∀ (st : Store) (s : PhpSymbol),
      (s.scope = "" ∨ (s.kind &&& (SymbolKind.Property ||| SymbolKind.Method |||
        SymbolKind.ClassConstant)) = 0 ∨ (s.modifiers &&& SymbolModifier.Private) > 0) →
      st.findBaseMember s = s) ∧
    (∀ (st : Store) (s : PhpSymbol),
      st.findBaseMember s = s ∨ baseMemberPred s (st.findBaseMember s) = true) ∧
    (Store.findBaseMember stC nC = nA ∧ nA ≠ nB ∧ nA ≠ nC) := by
  refine ⟨?_, ?_, stC_fbm, by decide, by decide⟩
  · intro st s h
    rw [Store.findBaseMember, if_pos h]
  · intro st s
    by_cases hpre : (s.scope = "" ∨ (s.kind &&& (SymbolKind.Property ||| SymbolKind.Method |||
        SymbolKind.ClassConstant)) = 0 ∨ (s.modifiers &&& SymbolModifier.Private) > 0)
    · left
      rw [Store.findBaseMember, if_pos hpre]
    · have hbody : st.findBaseMember s =
          ((st.findMembers s.scope MemberMergeStrategy.base (baseMemberPred s)).head?).getD s := by
        rw [Store.findBaseMember, if_neg hpre]
        rfl
      rw [hbody]
      cases hh : (st.findMembers s.scope MemberMergeStrategy.base (baseMemberPred s)).head? with
      | none =>
        left
        rfl
      | some y =>
        right
        show baseMemberPred s y = true
        exact findMembers_pred (List.mem_of_mem_head? hh)

/-- C9 counterexample: `B::m` overrides `A::M` changing only the name's
letter case; `A::M` is a non-private ancestor declaration of the same kind,
the same modifiers and a case-insensitively equal name, yet `findBaseMember`
returns the input `B::m`, not the furthest ancestor's declaration. -/
theorem claim_C9_counterexample :
    Store.findBaseMember stX mB = mB ∧ mB ≠ mA ∧
    mA.kind = mB.kind ∧ mA.modifiers = mB.modifiers ∧
    strToLower mA.name = strToLower mB.name ∧
    (mB.modifiers &&& SymbolModifier.Private) = 0 ∧ mB.scope ≠ "" ∧
    mA ∈ stX.findMembers "B" MemberMergeStrategy.none isMethod := by
  refine ⟨stX_fbm, by decide, by decide, by decide, by decide, by decide, by decide, ?_⟩
  rw [stX_members_none]
  decide

/-- Witness for C9's fallback part at a concrete non-member symbol. -/
theorem claim_C9_witness : Store.findBaseMember stX varLoc = varLoc :=
  claim_C9_findBaseMember.1 stX varLoc (by decide)

theorem indexableFilter_name_ne {x : PhpSymbol} (h : indexableFilter x = true) :
    x.name ≠ "" := by
  rw [indexableFilter] at h
  simp only [Bool.and_eq_true, decide_eq_true_eq] at h
  exact h.2

theorem strToLower_mem_symbolKeys (x : PhpSymbol) : strToLower x.name ∈ symbolKeys x := by
  rw [symbolKeys]
  by_cases h : x.kind = SymbolKind.Namespace
  · rw [if_pos h, mem_dedupFirst]
    exact List.mem_cons_self _ _
  · rw [if_neg h]
    exact List.mem_singleton.mpr rfl

theorem wellFormed_stub {st : Store} (h : st.wellFormed = true) :
    ∀ e ∈ st.symbolIndex.entries, ∀ loc ∈ e.2,
      ∃ x, st.resolveStub loc = Option.some x ∧ indexableFilter x = true ∧
        validKind x.kind = true ∧ e.1 ∈ symbolKeys x := by
  intro e he loc hloc
  rw [Store.wellFormed, Bool.and_eq_true] at h
  have h1 := h.1
  rw [List.all_eq_true] at h1
  have h2 := h1 e he
  rw [List.all_eq_true] at h2
  have h3 := h2 loc hloc
  cases hr : st.resolveStub loc with
  | none => rw [hr] at h3; simp at h3
  | some x =>
    rw [hr] at h3
    simp only [Bool.and_eq_true] at h3
    refine ⟨x, rfl, h3.1.1, h3.1.2, by simpa using h3.2⟩

theorem wellFormed_table {st : Store} (h : st.wellFormed = true) :
    ∀ p ∈ st.tableIndex, st.lookupTable p.1 = Option.some p.2 ∧
      ∀ x ∈ p.2.indexedNodes, validKind x.kind = true ∧
        ∃ l, x.location = Option.some l ∧ l.uriHash = p.1 ∧
          findByStart p.2.root l.range.start = Option.some x ∧
          ∀ k ∈ symbolKeys x,
            ({ uriHash := l.uriHash, start := l.range.start } : HashedStartLocation) ∈
              st.symbolIndex.getBucket k := by
  intro p hp
  rw [Store.wellFormed, Bool.and_eq_true] at h
  have h1 := h.2
  rw [List.all_eq_true] at h1
  have h2 := h1 p hp
  rw [Bool.and_eq_true] at h2
  refine ⟨by simpa using h2.1, ?_⟩
  intro x hx
  have h3 := h2.2
  rw [List.all_eq_true] at h3
  have h4 := h3 x hx
  rw [Bool.and_eq_true] at h4
  refine ⟨h4.1, ?_⟩
  cases hl : x.location with
  | none => rw [hl] at h4; simp at h4
  | some l =>
    have h5 := h4.2
    rw [hl] at h5
    simp only [Bool.and_eq_true, decide_eq_true_eq] at h5
    refine ⟨l, rfl, h5.1.1, h5.1.2, ?_⟩
    intro k hk
    have h6 := h5.2
    rw [List.all_eq_true] at h6
    have h7 := h6 k hk
    simpa using h7

/-- C1: over a well-formed store state, `find(text, filter)` returns exactly
the indexed symbols whose name matches `text` byte-exactly when the kind is
Constant or Variable and case-insensitively for every other kind, further
restricted by the predicate. -/
theorem claim_C1_find_characterisation (st : Store) (text : String)
    (f : PhpSymbol → Bool) (x : PhpSymbol) (h : st.wellFormed = true) :
    x ∈ st.find text f ↔
      (st.indexedSymbol x ∧ f x = true ∧ specFindMatches text x) := by
  constructor
  · intro hx
    rw [Store.find] at hx
    by_cases ht : text = ""
    · rw [if_pos ht] at hx
      simp at hx
    · rw [if_neg ht] at hx
      rw [List.mem_filter] at hx
      obtain ⟨hres, hcond⟩ := hx
      rw [Store.indexResultToSymbols, mem_dedupFirst, List.mem_filterMap] at hres
      obtain ⟨loc, hloc, hstub⟩ := hres
      rcases getBucket_cases st.symbolIndex (strToLower text) with hb | ⟨e, he, _, hbeq⟩
      · rw [NameIndex.findKey, hb] at hloc
        simp at hloc
      · rw [NameIndex.findKey, hbeq] at hloc
        obtain ⟨x2, hres2, hind2, hvk2, _⟩ := wellFormed_stub h e he loc hloc
        rw [hstub] at hres2
        injection hres2 with hres2
        subst hres2
        have hstub2 := hstub
        rw [Store.resolveStub] at hstub2
        rcases Option.bind_eq_some.mp hstub2 with ⟨T, hlook, hfbs⟩
        rw [Store.lookupTable] at hlook
        rcases Option.map_eq_some'.mp hlook with ⟨p, hfindp, hpt⟩
        have hp : p ∈ st.tableIndex := List.mem_of_find?_eq_some hfindp
        have hxind : x ∈ T.indexedNodes := by
          rw [SymbolTable.indexedNodes, List.mem_filter]
          exact ⟨mem_of_findByStart hfbs, hind2⟩
        simp only [Bool.and_eq_true, Bool.or_eq_true, beq_iff_eq, decide_eq_true_eq,
          Bool.not_eq_eq_eq_not, Bool.not_true, decide_eq_false_iff_not] at hcond
        refine ⟨⟨p, hp, by rw [hpt]; exact hxind⟩, hcond.1, ?_⟩
        rw [specFindMatches]
        rcases hcond.2 with ⟨hmask, hname⟩ | ⟨hmask, hname⟩
        · rw [if_pos ((findKindMask_iff hvk2).mp hmask)]
          exact hname
        · rw [if_neg (fun hc => hmask ((findKindMask_iff hvk2).mpr hc))]
          exact hname
  · rintro ⟨⟨p, hp, hxind⟩, hfx, hmatch⟩
    obtain ⟨hlookp, htbl⟩ := wellFormed_table h p hp
    obtain ⟨hvk, l, hxl, hlh, hfbs, hbuckets⟩ := htbl x hxind
    have hxindf : indexableFilter x = true := by
      rw [SymbolTable.indexedNodes, List.mem_filter] at hxind
      exact hxind.2
    have hnamene : x.name ≠ "" := indexableFilter_name_ne hxindf
    rw [specFindMatches] at hmatch
    have hlceq : strToLower text = strToLower x.name := by
      by_cases hk : x.kind = SymbolKind.Constant ∨ x.kind = SymbolKind.Variable
      · rw [if_pos hk] at hmatch
        rw [hmatch]
      · rw [if_neg hk] at hmatch
        exact hmatch.symm
    have ht : text ≠ "" := by
      intro hc
      apply strToLower_ne_empty hnamene
      rw [← hlceq, hc]
      rfl
    rw [Store.find, if_neg ht, List.mem_filter]
    constructor
    · rw [Store.indexResultToSymbols, mem_dedupFirst, List.mem_filterMap]
      refine ⟨{ uriHash := l.uriHash, start := l.range.start }, ?_, ?_⟩
      · rw [NameIndex.findKey, hlceq]
        exact hbuckets (strToLower x.name) (strToLower_mem_symbolKeys x)
      · rw [Store.resolveStub]
        show (st.lookupTable l.uriHash).bind (fun t => findByStart t.root l.range.start) = _
        rw [hlh, hlookp]
        show findByStart p.2.root l.range.start = _
        exact hfbs
    · simp only [Bool.and_eq_true, Bool.or_eq_true, beq_iff_eq, decide_eq_true_eq,
        Bool.not_eq_eq_eq_not, Bool.not_true, decide_eq_false_iff_not]
      refine ⟨hfx, ?_⟩
      by_cases hk : x.kind = SymbolKind.Constant ∨ x.kind = SymbolKind.Variable
      · left
        have hm2 := hmatch
        rw [if_pos hk] at hm2
        exact ⟨(findKindMask_iff hvk).mpr hk, hm2⟩
      · right
        have hm2 := hmatch
        rw [if_neg hk] at hm2
        exact ⟨fun hc => hk ((findKindMask_iff hvk).mp hc), hm2⟩

/-- Witness for C1 on the concrete scenario store, which is well-formed. -/
theorem claim_C1_witness :
    fC ∈ st8.find "F" isMethod ↔
      (st8.indexedSymbol fC ∧ isMethod fC = true ∧ specFindMatches "F" fC) :=
  claim_C1_find_characterisation st8 "F" isMethod fC (by decide)

